import Mathlib

/-!
Verification development for the codestitch-helper remote-asset localization
pipeline.  The TypeScript sources are shallowly embedded: JS strings are
modelled as `List Char`, the filesystem as an association list from paths to
byte lists, and the HTTP layer as a function from URLs to responses.  External
collaborators (the `es-module-lexer` parser, the WHATWG `URL` class and the
Node `path` module) are modelled by small executable definitions that agree
with the real libraries on the inputs this extension feeds them; each such
definition carries a doc comment saying what it models.
-/

set_option autoImplicit false

namespace CodestitchHelper

/-- JS strings are modelled as lists of characters. -/
abbrev Str := List Char

/-- Coerce a Lean string literal to the `Str` model. -/
def strL (s : String) : Str := s.toList

/-- The ASCII whitespace characters matched by the JS `\s` class
(the model restricts attention to ASCII). -/
def isWsChar (c : Char) : Bool :=
  c == ' ' || c == '\t' || c == '\n' || c == '\r' || c == '\x0b' || c == '\x0c'

/-- `[A-Za-z0-9]` test. -/
def isAlnumChar (c : Char) : Bool := c.isAlpha || c.isDigit

/-- JS `String.prototype.slice(a, b)` for `0 ≤ a ≤ b`. -/
def jsSlice (s : Str) (a b : Nat) : Str := (s.take b).drop a

/-- Auxiliary scan for `indexOfSub`. -/
def indexOfSubAux (pat : Str) : Str → Nat → Option Nat
  | [], i => if pat.isEmpty then some i else none
  | c :: cs, i =>
    if pat.isPrefixOf (c :: cs) then some i else indexOfSubAux pat cs (i + 1)

/-- JS `String.prototype.indexOf` returning `none` for `-1`. -/
def indexOfSub (s pat : Str) : Option Nat := indexOfSubAux pat s 0

/-- JS `String.prototype.includes`. -/
def includesSub (s pat : Str) : Bool := (indexOfSub s pat).isSome

/-- Strip trailing JS whitespace, i.e. `replace(/\s+$/, "")`. -/
def rstripWs (s : Str) : Str := (s.reverse.dropWhile isWsChar).reverse

/-- JS `String.prototype.trimStart`. -/
def trimStartStr (s : Str) : Str := s.dropWhile isWsChar

/-- Split on a separator character; always returns at least one segment,
like JS `String.prototype.split` with a single-character separator. -/
def splitOnChar (sep : Char) : Str → List Str
  | [] => [[]]
  | c :: cs =>
    match splitOnChar sep cs with
    | [] => [[c]]
    | h :: t => if c == sep then [] :: h :: t else (c :: h) :: t

/-- Fuel-driven scan for `replaceAllSub`; one unit of fuel per character of
the input suffices since every step consumes at least one character. -/
def replaceAllSubAux (pat rep : Str) : Nat → Str → Str
  | 0, s => s
  | _ + 1, [] => []
  | fuel + 1, c :: cs =>
    if pat.isPrefixOf (c :: cs) && !pat.isEmpty then
      rep ++ replaceAllSubAux pat rep fuel ((c :: cs).drop pat.length)
    else c :: replaceAllSubAux pat rep fuel cs

/-- Global literal-substring replacement: JS
`s.replace(new RegExp(escapeRegex(pat), "g"), rep)` for a nonempty pattern
(an empty pattern leaves the string unchanged in this model). -/
def replaceAllSub (pat rep s : Str) : Str := replaceAllSubAux pat rep s.length s

/-- First-occurrence literal replacement: JS `s.replace(pat, rep)` with a
string pattern (which replaces only the first occurrence; an empty pattern
matches at offset 0). -/
def jsReplaceFirst (pat rep : Str) : Str → Str
  | [] => if pat.isEmpty then rep else []
  | c :: cs =>
    if pat.isPrefixOf (c :: cs) then rep ++ (c :: cs).drop pat.length
    else c :: jsReplaceFirst pat rep cs

/-- Last index of a character in a string. -/
def lastIndexOfChar (ch : Char) (s : Str) : Option Nat :=
  match s.reverse.findIdx? (fun c => c == ch) with
  | none => none
  | some j => some (s.length - 1 - j)

/-- Does the string start with a decimal digit (`/^[0-9]/.test`)? -/
def digitStart : Str → Bool
  | [] => false
  | c :: _ => c.isDigit

/-- Kebab/snake to camel case: the global replacement
`replace(/[-_]([a-zA-Z0-9])/g, (m, ch) => ch.toUpperCase())`,
which scans left to right consuming two characters per match. -/
def camelizeStr : Str → Str
  | [] => []
  | [c] => [c]
  | c1 :: c2 :: rest =>
    if (c1 == '-' || c1 == '_') && isAlnumChar c2 then
      c2.toUpper :: camelizeStr rest
    else
      c1 :: camelizeStr (c2 :: rest)

/-! ### Model of the Node `path` module (POSIX flavour)

These model the external `path` library for the well-formed slash-separated
paths this extension passes to it. -/

/-- Remove trailing `/` characters. -/
def dropTrailingSlashes (s : Str) : Str := (s.reverse.dropWhile (· == '/')).reverse

/-- Models `path.basename` (POSIX): the part after the last `/`, ignoring
trailing slashes. -/
def basenameP (s : Str) : Str :=
  ((splitOnChar '/' (dropTrailingSlashes s)).getLastD [])

/-- Models `path.extname` on a bare filename: the suffix from the last `.`,
unless that dot is the first character or absent. -/
def extnameP (f : Str) : Str :=
  match lastIndexOfChar '.' f with
  | none => []
  | some 0 => []
  | some i => f.drop i

/-- Models `path.dirname` (POSIX) for the normalized paths used here. -/
def dirnameP (s : Str) : Str :=
  let s1 := dropTrailingSlashes s
  if s1.isEmpty then (if s.headD ' ' == '/' then strL "/" else strL ".")
  else
    match lastIndexOfChar '/' s1 with
    | none => strL "."
    | some 0 => strL "/"
    | some i => s1.take i

/-- Models `path.join(dir, name)` for a directory with no trailing slash and
a bare filename. -/
def joinP (dir name : Str) : Str := dir ++ '/' :: name

/-- Length of the common prefix of two segment lists. -/
def commonPrefixLen : List Str → List Str → Nat
  | a :: as, b :: bs => if a == b then 1 + commonPrefixLen as bs else 0
  | _, _ => 0

/-- Models `path.relative` (POSIX) for absolute, normalized inputs. -/
def relativeP (fromDir toPath : Str) : Str :=
  let fa := (splitOnChar '/' fromDir).filter (fun x => !x.isEmpty)
  let ta := (splitOnChar '/' toPath).filter (fun x => !x.isEmpty)
  let k := commonPrefixLen fa ta
  let segs := List.replicate (fa.length - k) (strL "..") ++ ta.drop k
  List.intercalate ['/'] segs

/-! ### Model of the WHATWG `URL` class

`parseUrl` models `new URL(s)` for absolute `scheme://host/...` URLs, the only
shape this extension feeds it; `none` models the constructor throwing. -/

structure ParsedUrl where
  protocol : Str
  host : Str
  pathname : Str
  deriving Repr, DecidableEq

/-- Models `new URL(s)` restricted to `scheme://host[/path][?query][#frag]`
inputs: returns the protocol (with trailing colon), host, and pathname
(leading `/`, query and fragment stripped). Returns `none` (models a thrown
`TypeError`) when there is no `://`, an empty or non-alphabetic scheme, or an
empty host. -/
def parseUrl (s : Str) : Option ParsedUrl :=
  match indexOfSub s (strL "://") with
  | none => none
  | some i =>
    let scheme := s.take i
    if scheme.isEmpty || !scheme.all Char.isAlpha then none
    else
      let rest := s.drop (i + 3)
      let hostEnd := (rest.findIdx? (fun c => c == '/' || c == '?' || c == '#')).getD rest.length
      let host := rest.take hostEnd
      let tail := rest.drop hostEnd
      if host.isEmpty then none
      else
        let pathname :=
          match tail with
          | [] => strL "/"
          | c :: _ =>
            if c == '/' then tail.takeWhile (fun ch => !(ch == '?' || ch == '#'))
            else strL "/"
        some ⟨scheme ++ [':'], host, pathname⟩

/-! ### `src/utils/imageDownloader.ts` — URL predicates and name derivation -/

/-- `isRemoteImageUrl` from `imageDownloader.ts`: true iff the URL parses and
its protocol is `http:` or `https:`. -/
def isRemoteImageUrl (url : Str) : Bool :=
  match parseUrl url with
  | none => false
  | some u => u.protocol == strL "http:" || u.protocol == strL "https:"

/-- Shared tail of the binding-name derivation: strip characters outside
`[A-Za-z0-9_-]`, convert kebab/snake separators to camel case, prefix `img`
when the result starts with a digit, and fall back to `"image"` when empty. -/
def deriveNameFromTitle (title : Str) : Str :=
  if title.isEmpty then strL "image"
  else
    let ct1 := title.filter (fun c => isAlnumChar c || c == '-' || c == '_')
    let ct2 := camelizeStr ct1
    let ct3 := if digitStart ct2 then strL "img" ++ ct2 else ct2
    if ct3.isEmpty then strL "image" else ct3

/-- `urlToVariableName` from `astroTransform.ts`: derive a JS identifier from
the basename of a path. -/
def urlToVariableName (url : Str) : Str :=
  let filename := basenameP url
  let title := (splitOnChar '.' filename).headD []
  deriveNameFromTitle title

/-- `urlToImportName` from `imageDownloader.ts`: derive a JS identifier from
the last pathname segment of a URL; `"image"` on any malformed input. -/
def urlToImportName (url : Str) : Str :=
  match parseUrl url with
  | none => strL "image"
  | some u =>
    if u.pathname == strL "/" || u.pathname.isEmpty then strL "image"
    else
      let filename := (splitOnChar '/' u.pathname).getLastD []
      if filename.isEmpty || !(filename.contains '.') then strL "image"
      else
        let title := (splitOnChar '.' filename).headD []
        deriveNameFromTitle title

/-- `calculateRelativePath`-style helper `getRelativeImportPath` from
`imageDownloader.ts`: relative path from a directory to a file, separators
normalized, guaranteed to start with `./` or `../`. -/
def getRelativeImportPath (filePath fromDir : Str) : Str :=
  let rel := replaceAllSub ['\\'] ['/'] (relativeP fromDir filePath)
  if !((strL "./").isPrefixOf rel) && !((strL "../").isPrefixOf rel) then
    strL "./" ++ rel
  else rel

/-! ### Model of the external `es-module-lexer` parser (spec §6)

The prologue inserters in `src/utils/importLexer.ts` call the external
`es-module-lexer` WASM parser, whose contract (spec §6) is: for each import
statement of the prologue it yields the module specifier `n`, the specifier
span `s..e` (without quotes) and the statement span `ss..se`.  `parseImports`
models that parser for prologues whose import statements each occupy one line
of the shape `import <clause> from "<specifier>";` — the only shape this
extension produces and edits.  `se` is the index just past the closing
quote. -/

structure Imp where
  n : Str
  s : Nat
  e : Nat
  ss : Nat
  se : Nat
  deriving Repr, DecidableEq

/-- Parse a single line as an import statement: it must contain exactly two
double quotes, with the part before the opening quote starting with
`import ` (or `import{`) and ending with ` from `.  Returns the specifier
and its span relative to the line. -/
def parseLineImp (line : Str) : Option (Nat × Nat × Str) :=
  match splitOnChar '"' line with
  | [pre, spec, _post] =>
    if ((strL "import ").isPrefixOf pre || (strL "import\x7b").isPrefixOf pre)
        && (strL " from ").isSuffixOf pre then
      some (pre.length + 1, pre.length + 1 + spec.length, spec)
    else none
  | _ => none

/-- Walk the lines of the prologue carrying the absolute offset of the
current line. -/
def parseImportsFrom : Nat → List Str → List Imp
  | _, [] => []
  | o, line :: rest =>
    let tail := parseImportsFrom (o + line.length + 1) rest
    match parseLineImp line with
    | none => tail
    | some (ps, pe, spec) => ⟨spec, o + ps, o + pe, o, o + pe + 1⟩ :: tail

/-- Model of `parse` from `es-module-lexer` (see section comment above). -/
def parseImports (value : Str) : List Imp :=
  parseImportsFrom 0 (splitOnChar '\n' value)

/-! ### `src/utils/importLexer.ts` — prologue import insertion -/

/-- `insertIntoImport` from `importLexer.ts` (identical in
`import-lexer.ts`): insert `importName` before the closing brace of
the import statement spanning `impSS..impSE`; no-op when the statement has no
closing brace or already contains the name. -/
def insertIntoImport (code : Str) (impSS impSE : Nat) (importName : Str) : Str :=
  let importStatement := jsSlice code impSS impSE
  match indexOfSub importStatement ['\x7d'] with
  | none => code
  | some closingBraceIndex =>
    if includesSub importStatement importName then code
    else
      let before := rstripWs (importStatement.take closingBraceIndex)
      let after := importStatement.drop closingBraceIndex
      let newImportStatement :=
        before ++
          (if (strL "\x7b").isSuffixOf before then importName ++ [' ']
           else ',' :: ' ' :: (importName ++ [' '])) ++ after
      code.take impSS ++ newImportStatement ++ code.drop impSE

/-- `insertImportAfterLast` from `importLexer.ts`: insert a new import
statement after the first newline following the last existing import (to
preserve trailing same-line content), or prepend it with a leading blank
line when no imports exist. -/
def insertImportAfterLast (value : Str) (imports : List Imp) (importStatement : Str) : Str :=
  match imports.getLast? with
  | some lastImport =>
    let afterImport := value.drop lastImport.se
    let insertPosition :=
      match indexOfSub afterImport ['\n'] with
      | some idx => lastImport.se + idx + 1
      | none => lastImport.se
    value.take insertPosition ++ importStatement ++ '\n' :: value.drop insertPosition
  | none => '\n' :: importStatement ++ '\n' :: trimStartStr value

/-- The `astro:assets` module specifier. -/
def astroAssetsSpec : Str := strL "astro:assets"

/-- Common body of `addPictureToFrontmatter` and `addImageToFrontmatter`
from `importLexer.ts` (the two functions are textually identical up to the
binding name): merge `importName` into an existing `astro:assets` import, or
prepend `newImportLine` with a leading blank line when none exists. -/
def addNamedImportToFrontmatter (importName newImportLine value : Str) : Str :=
  let imports := parseImports value
  match imports.find? (fun imp => imp.n == astroAssetsSpec) with
  | none => '\n' :: newImportLine ++ '\n' :: trimStartStr value
  | some importsAssets =>
    insertIntoImport value importsAssets.ss importsAssets.se importName

/-- `addPictureToFrontmatter` from `importLexer.ts`. -/
def addPictureToFrontmatter (value : Str) : Str :=
  addNamedImportToFrontmatter (strL "Picture")
    (strL "import \x7b Picture \x7d from \"astro:assets\";") value

/-- `addImageToFrontmatter` from `importLexer.ts`. -/
def addImageToFrontmatter (value : Str) : Str :=
  addNamedImportToFrontmatter (strL "Image")
    (strL "import \x7b Image \x7d from \"astro:assets\";") value

/-- The new default-import statement text built by
`addImageImportToFrontmatter`. -/
def renderDefaultImport (variableName imagePath : Str) : Str :=
  strL "import " ++ variableName ++ strL " from \"" ++ imagePath ++ strL "\";"

/-- The duplicate-module-path check of `addImageImportToFrontmatter`: some
parsed import's specifier slice equals `imagePath` exactly. -/
def hasImportPath (value : Str) (imports : List Imp) (imagePath : Str) : Bool :=
  imports.any (fun imp => jsSlice value imp.s imp.e == imagePath)

/-- `addImageImportToFrontmatter` from `importLexer.ts`: no-op when an import
with the exact same module path exists, otherwise insert
`import <variableName> from "<imagePath>";` after the last import. -/
def addImageImportToFrontmatter (value variableName imagePath : Str) : Str :=
  let imports := parseImports value
  if hasImportPath value imports imagePath then value
  else insertImportAfterLast value imports (renderDefaultImport variableName imagePath)

/-! ### `src/utils/imageDownloader.ts` — the download engine

The filesystem is modelled as an association list from paths to byte lists;
the HTTP layer as a function from URLs to either a transport error message or
a response.  `fuel` bounds the redirect recursion, which the source leaves
unbounded. -/

/-- The path-hostile characters of the `sanitizeFilename` regex
`/[<>:"\/\\|?*\s]/`. -/
def isHostileChar (c : Char) : Bool :=
  c == '<' || c == '>' || c == ':' || c == '"' || c == '/' || c == '\\' ||
    c == '|' || c == '?' || c == '*' || isWsChar c

/-- `sanitizeFilename` from `imageDownloader.ts`: replace every path-hostile
character by an underscore (the regex is a single-character class with the
global flag, hence a character-wise map). -/
def sanitizeFilename (filename : Str) : Str :=
  filename.map (fun c => if isHostileChar c then '_' else c)

/-- The candidate filename as a function of the URL's last pathname segment:
`pop() || "image"`, extension defaulted to `.jpg`, first occurrence of the
extension removed from the base, and the result sanitized. -/
def candidateFromSegment (filename0 : Str) : Str :=
  let filename := if filename0.isEmpty then strL "image" else filename0
  let ext0 := extnameP filename
  let extension := if ext0.isEmpty then strL ".jpg" else ext0
  let baseFilename := jsReplaceFirst ext0 [] filename
  sanitizeFilename (baseFilename ++ extension)

/-- The candidate-filename computation inlined in `downloadRemoteImage`
(lines 45–53), applied to the URL's last pathname segment. -/
def candidateFilename (urlObj : ParsedUrl) : Str :=
  candidateFromSegment ((splitOnChar '/' urlObj.pathname).getLastD [])

/-- An HTTP response: status code, optional `Location` header, optional
`content-length` header (already parsed; a missing header reads as 0 in the
source), status message, and body chunks as byte lists. -/
structure HttpResp where
  code : Nat
  location : Option Str
  contentLength : Option Nat
  statusMessage : Str
  chunks : List (List Nat)
  deriving Repr, DecidableEq

/-- The network: each URL either raises a transport error carrying a message
(the `"error"` event) or yields a response. -/
abbrev World := Str → Except Str HttpResp

/-- The filesystem: an association list from absolute paths to byte
contents.  Directories are not tracked (`mkdir` always succeeds). -/
abbrev Fs := List (Str × List Nat)

def fsExists (p : Str) (fs : Fs) : Bool := fs.any (fun e => e.1 == p)

def fsUnlink (p : Str) (fs : Fs) : Fs := fs.filter (fun e => !(e.1 == p))

def fsWrite (p : Str) (content : List Nat) (fs : Fs) : Fs :=
  (p, content) :: fsUnlink p fs

/-- Cumulative progress pairs `(bytesDownloaded, totalBytes)`, one per
chunk. -/
def progressEventsAux (downloaded total : Nat) : List (List Nat) → List (Nat × Nat)
  | [] => []
  | ch :: rest =>
    (downloaded + ch.length, total) :: progressEventsAux (downloaded + ch.length) total rest

/-- The invocations a supplied progress callback receives while streaming the
given chunks: the source guards each call with `onProgress && totalBytes > 0`,
so nothing is emitted when the total is 0. -/
def progressEvents (chunks : List (List Nat)) (totalBytes : Nat) : List (Nat × Nat) :=
  if totalBytes > 0 then progressEventsAux 0 totalBytes chunks else []

/-- Outcome of `downloadFile`: promise result, final filesystem, progress
callback invocations, and the number of HTTP requests issued. -/
structure DLOutcome where
  res : Except Str Unit
  fs : Fs
  events : List (Nat × Nat)
  fetches : Nat

/-- Decimal rendering of a status code. -/
def renderNat (n : Nat) : Str := (Nat.repr n).toList

/-- The rejection message for a terminal non-200 response. -/
def failMsg (code : Nat) (msg : Str) : Str :=
  strL "Failed to download: " ++ renderNat code ++ ' ' :: msg

/-- `downloadFile` from `imageDownloader.ts`: create the write stream (an
empty partial file), issue the request, follow 301/302 redirects carrying a
`Location` header after removing the partial file, reject non-200 terminal
responses after removing the partial file, and otherwise stream the chunks to
the destination while reporting progress. -/
def downloadFile (w : World) : Nat → Str → Str → Fs → DLOutcome
  | 0, _url, dest, fs =>
    ⟨Except.error (strL "redirect limit exceeded"), fsUnlink dest (fsWrite dest [] fs), [], 0⟩
  | fuel + 1, url, dest, fs =>
    let fs1 := fsWrite dest [] fs
    match w url with
    | Except.error msg => ⟨Except.error msg, fsUnlink dest fs1, [], 1⟩
    | Except.ok r =>
      let terminal : DLOutcome :=
        if r.code != 200 then
          ⟨Except.error (failMsg r.code r.statusMessage), fsUnlink dest fs1, [], 1⟩
        else
          let totalBytes := r.contentLength.getD 0
          ⟨Except.ok (), fsWrite dest r.chunks.flatten fs1, progressEvents r.chunks totalBytes, 1⟩
      if r.code == 301 || r.code == 302 then
        match r.location with
        | some redirectUrl =>
          let sub := downloadFile w fuel redirectUrl dest (fsUnlink dest fs1)
          ⟨sub.res, sub.fs, sub.events, sub.fetches + 1⟩
        | none => terminal
      else terminal

/-- The terminal response reached from a URL after following 301/302
redirects with a `Location` header, if one is reached within `fuel` hops
without a transport error. -/
def terminalResp (w : World) : Nat → Str → Option HttpResp
  | 0, _ => none
  | fuel + 1, url =>
    match w url with
    | Except.error _ => none
    | Except.ok r =>
      if r.code == 301 || r.code == 302 then
        match r.location with
        | some loc => terminalResp w fuel loc
        | none => some r
      else some r

/-- `DownloadResult` from `imageDownloader.ts`. -/
structure DownloadResult where
  success : Bool
  localPath : Option Str
  error : Option Str
  skipped : Option Bool
  deriving Repr, DecidableEq

/-- A full engine run: the returned `DownloadResult` plus the final
filesystem, progress invocations and HTTP request count. -/
structure EngineRun where
  result : DownloadResult
  fs : Fs
  events : List (Nat × Nat)
  fetches : Nat

/-- `downloadRemoteImage` from `imageDownloader.ts`: derive the candidate
filename, skip when the file exists and `overwrite` is unset, otherwise
fetch via `downloadFile`; every thrown error (invalid URL, rejected
download) is swallowed into a failed `DownloadResult`. -/
def downloadRemoteImage (w : World) (fuel : Nat) (url imageDir : Str)
    (overwrite : Bool) (fs : Fs) : EngineRun :=
  match parseUrl url with
  | none => ⟨⟨false, none, some (strL "Invalid URL"), none⟩, fs, [], 0⟩
  | some urlObj =>
    let localPath := joinP imageDir (candidateFilename urlObj)
    if fsExists localPath fs && !overwrite then
      ⟨⟨true, some localPath, none, some true⟩, fs, [], 0⟩
    else
      let d := downloadFile w fuel url localPath fs
      match d.res with
      | Except.ok _ => ⟨⟨true, some localPath, none, some false⟩, d.fs, d.events, d.fetches⟩
      | Except.error m => ⟨⟨false, none, some m, none⟩, d.fs, d.events, d.fetches⟩

/-! ### `findRemoteImageUrls` from `imageDownloader.ts` — the scanner

The two regex passes of the source are modelled as explicit scanners with
JS `exec`/`lastIndex` semantics: repeatedly find the leftmost match at or
after the end of the previous one.  The `context` preview field of
`RemoteImage` (surrounding lines, used only for display) is not modelled. -/

/-- `["']`: double or single quote. -/
def isQuoteChar (c : Char) : Bool := c == '"' || c.toNat == 39

/-- Case-insensitive prefix test (the source regexes carry the `i` flag). -/
def ciPrefix : Str → Str → Bool
  | [], _ => true
  | _ :: _, [] => false
  | p :: ps, c :: cs => (p.toLower == c.toLower) && ciPrefix ps cs

/-- First occurrence of a character at or after `start`. -/
def findCharFrom (text : Str) (start : Nat) (target : Char) : Option Nat :=
  ((text.drop start).findIdx? (fun c => c == target)).map (fun j => start + j)

/-- First quote character at or after `start`. -/
def findQuoteFrom (text : Str) (start : Nat) : Option Nat :=
  ((text.drop start).findIdx? isQuoteChar).map (fun j => start + j)

/-- Case-insensitive variant of the substring scan. -/
def indexOfSubCiAux (pat : Str) : Str → Nat → Option Nat
  | [], i => if pat.isEmpty then some i else none
  | c :: cs, i => if ciPrefix pat (c :: cs) then some i else indexOfSubCiAux pat cs (i + 1)

/-- First case-insensitive occurrence of `pat` at or after `start`. -/
def indexOfSubCiFrom (text pat : Str) (start : Nat) : Option Nat :=
  (indexOfSubCiAux pat (text.drop start) 0).map (fun j => start + j)

/-- `https?:\/\/` at position `p`. -/
def httpAt (text : Str) (p : Nat) : Bool :=
  ciPrefix (strL "http://") (text.drop p) || ciPrefix (strL "https://") (text.drop p)

/-- Does position `p` hold a quote character? -/
def quoteAt (text : Str) (p : Nat) : Bool :=
  match text.drop p with
  | c :: _ => isQuoteChar c
  | [] => false

/-- Try to complete the img regex from a candidate `src=` position `k`:
`src=["'](https?:\/\/[^"']+)["'][^>]*>`.  Returns the match end and the
captured URL. -/
def imgSrcCandidate (text : Str) (k : Nat) : Option (Nat × Str) :=
  if ciPrefix (strL "src=") (text.drop k) && quoteAt text (k + 4) && httpAt text (k + 5) then
    match findQuoteFrom text (k + 5) with
    | none => none
    | some q =>
      match findCharFrom text (q + 1) '>' with
      | none => none
      | some gt => some (gt + 1, jsSlice text (k + 5) q)
  else none

/-- Match `/<img[^>]+src=["'](https?:\/\/[^"']+)["'][^>]*>/i` anchored at
position `i`.  The `[^>]+` before `src=` cannot cross the first `>` after
`<img`, and greedy backtracking makes the engine use the rightmost viable
`src=`. -/
def imgMatchAt (text : Str) (i : Nat) : Option (Nat × Str) :=
  if ciPrefix (strL "<img") (text.drop i) then
    match findCharFrom text (i + 4) '>' with
    | none => none
    | some g =>
      let ks := (List.range (g + 1)).filter
        (fun k => i + 5 ≤ k && (imgSrcCandidate text k).isSome)
      match ks.getLast? with
      | none => none
      | some k => imgSrcCandidate text k
  else none

/-- Global `exec` loop for the img pattern; yields
`(matchStart, matchEnd, url)` triples. -/
def imgScanAux (text : Str) : Nat → Nat → List (Nat × Nat × Str)
  | 0, _ => []
  | fuel + 1, pos =>
    if pos < text.length then
      match imgMatchAt text pos with
      | some (endPos, url) => (pos, endPos, url) :: imgScanAux text fuel endPos
      | none => imgScanAux text fuel (pos + 1)
    else []

/-- All img-pattern matches of the document text, in document order. -/
def imgMatches (text : Str) : List (Nat × Nat × Str) :=
  imgScanAux text (text.length + 1) 0

/-- Match `/<picture[^>]*>[\s\S]*?<\/picture>/i` anchored at position `i`:
first `>` after `<picture`, then the earliest `</picture>`.  Returns the
match end. -/
def pictureMatchAt (text : Str) (i : Nat) : Option Nat :=
  if ciPrefix (strL "<picture") (text.drop i) then
    match findCharFrom text (i + 8) '>' with
    | none => none
    | some g =>
      match indexOfSubCiFrom text (strL "</picture>") (g + 1) with
      | none => none
      | some j => some (j + 10)
  else none

/-- Global `exec` loop for the picture pattern; yields `(start, end)`
pairs. -/
def pictureScanAux (text : Str) : Nat → Nat → List (Nat × Nat)
  | 0, _ => []
  | fuel + 1, pos =>
    if pos < text.length then
      match pictureMatchAt text pos with
      | some endPos => (pos, endPos) :: pictureScanAux text fuel endPos
      | none => pictureScanAux text fuel (pos + 1)
    else []

/-- All picture-element matches of the document text, in document order. -/
def pictureMatches (text : Str) : List (Nat × Nat) :=
  pictureScanAux text (text.length + 1) 0

/-- Match `/(?:src|srcset)=["'](https?:\/\/[^"']+)["']/i` anchored at `pos`
inside a picture element's text. -/
def srcUrlMatchAt (content : Str) (pos : Nat) : Option (Nat × Str) :=
  let attempt : Nat → Option (Nat × Str) := fun q =>
    if quoteAt content q && httpAt content (q + 1) then
      match findQuoteFrom content (q + 1) with
      | none => none
      | some qq => some (qq + 1, jsSlice content (q + 1) qq)
    else none
  if ciPrefix (strL "src=") (content.drop pos) then attempt (pos + 4)
  else if ciPrefix (strL "srcset=") (content.drop pos) then attempt (pos + 7)
  else none

/-- Global `exec` loop collecting the `src`/`srcset` URLs of a picture
element, in order of occurrence. -/
def srcUrlScanAux (content : Str) : Nat → Nat → List Str
  | 0, _ => []
  | fuel + 1, pos =>
    if pos < content.length then
      match srcUrlMatchAt content pos with
      | some (endPos, url) => url :: srcUrlScanAux content fuel endPos
      | none => srcUrlScanAux content fuel (pos + 1)
    else []

/-- All `src`/`srcset` URLs appearing inside a picture element's text. -/
def srcUrls (content : Str) : List Str :=
  srcUrlScanAux content (content.length + 1) 0

/-- Insertion-ordered deduplication, as a JS `Set` built by iteration:
keeps the first occurrence of each element. -/
def uniqueFirstAux (seen : List Str) : List Str → List Str
  | [] => []
  | u :: rest =>
    if seen.contains u then uniqueFirstAux seen rest
    else u :: uniqueFirstAux (u :: seen) rest

/-- The `uniqueUrls` set of the picture pass. -/
def uniqueFirst (l : List Str) : List Str := uniqueFirstAux [] l

inductive TagType where
  | img
  | picture
  deriving Repr, DecidableEq

/-- `RemoteImage` from `imageDownloader.ts`; the `range` is modelled as the
match's start/end offsets, and the presentational `context` field is not
modelled. -/
structure RemoteImage where
  url : Str
  rangeStart : Nat
  rangeEnd : Nat
  tagType : TagType
  deriving Repr, DecidableEq

/-- The entries produced by the img pass. -/
def imgEntries (text : Str) : List RemoteImage :=
  (imgMatches text).map (fun m => ⟨m.2.2, m.1, m.2.1, TagType.img⟩)

/-- The entries produced by the picture pass: one per distinct URL of each
picture element. -/
def pictureEntries (text : Str) : List RemoteImage :=
  ((pictureMatches text).map (fun m =>
    (uniqueFirst (srcUrls (jsSlice text m.1 m.2))).map
      (fun u => (⟨u, m.1, m.2, TagType.picture⟩ : RemoteImage)))).flatten

/-- `findRemoteImageUrls` from `imageDownloader.ts`: the img-pattern pass
followed by the picture-pattern pass. -/
def findRemoteImageUrls (text : Str) : List RemoteImage :=
  imgEntries text ++ pictureEntries text

/-! ### `downloadRemoteImages` from `commands/shared/downloadRemoteImages.ts`
— the batch orchestrator

Only the algorithmic core is modelled: the scan-and-merge over the target
documents, and the download-and-rewrite loop over the selected URLs.  The
UI steps (scope prompt, quick-pick selection, directory prompt) are external
collaborators; the model takes the document list and save directory as
inputs and selects every discovered URL. -/

structure Doc where
  path : Str
  text : Str
  deriving Repr, DecidableEq

/-- The scanning phase: `allRemoteImages`, a map keyed by URL.  The source
keeps the *first* `{image, document}` pair seen for each URL
(`if (!allRemoteImages.has(image.url)) allRemoteImages.set(...)`). -/
def scanMerge (docs : List Doc) : List (Str × Doc) :=
  docs.foldl (fun acc doc =>
    (findRemoteImageUrls doc.text).foldl (fun acc2 ri =>
      if acc2.any (fun e => e.1 == ri.url) then acc2 else acc2 ++ [(ri.url, doc)]) acc) []

/-- Orchestrator run state and summary: filesystem, current document texts,
success/failure counters, the `filesUpdated` set, and one entry per
`downloadRemoteImage` invocation. -/
structure OrchOutcome where
  fs : Fs
  docsTexts : List (Str × Str)
  successCount : Nat
  failedCount : Nat
  filesUpdated : List Str
  engineCalls : List Str
  deriving Repr, DecidableEq

/-- Current text of a document (`document.getText()` against the live
buffer, which reflects earlier edits of the run). -/
def textOf (docsTexts : List (Str × Str)) (p : Str) : Str :=
  ((docsTexts.find? (fun e => e.1 == p)).map Prod.snd).getD []

/-- Whole-document replacement (`WorkspaceEdit.replace` over the full
range). -/
def setText (docsTexts : List (Str × Str)) (p t : Str) : List (Str × Str) :=
  docsTexts.map (fun e => if e.1 == p then (e.1, t) else e)

/-- `Set.add` on the `filesUpdated` set. -/
def addUnique (l : List Str) (p : Str) : List Str :=
  if l.contains p then l else l ++ [p]

/-- One iteration of the download loop: download the selected URL, then walk
`allRemoteImages` updating every entry whose key equals the selection
(the map holds at most one such entry). -/
def orchStep (w : World) (fuel : Nat) (saveDir : Str)
    (allRemoteImages : List (Str × Doc)) (st : OrchOutcome) (selUrl : Str) : OrchOutcome :=
  let engine := downloadRemoteImage w fuel selUrl saveDir false st.fs
  let st1 := { st with fs := engine.fs, engineCalls := st.engineCalls ++ [selUrl] }
  match engine.result.success, engine.result.localPath with
  | true, some localPath =>
    let st2 := allRemoteImages.foldl (fun acc entry =>
      if entry.1 == selUrl then
        let doc := entry.2
        let text := textOf acc.docsTexts doc.path
        let documentDir := dirnameP doc.path
        let relativePath := getRelativeImportPath localPath documentDir
        let updatedText := replaceAllSub selUrl relativePath text
        if updatedText != text then
          { acc with
            docsTexts := setText acc.docsTexts doc.path updatedText,
            filesUpdated := addUnique acc.filesUpdated doc.path }
        else acc
      else acc) st1
    { st2 with successCount := st2.successCount + 1 }
  | _, _ => { st1 with failedCount := st1.failedCount + 1 }

/-- The orchestrator core of `downloadRemoteImages`: scan and merge all
documents, then download each unique URL once and rewrite references.  The
model selects every discovered URL (the user picking everything in the
quick-pick). -/
def runDownloadRemoteImages (w : World) (fuel : Nat) (docs : List Doc) (saveDir : Str) :
    OrchOutcome :=
  let allRemoteImages := scanMerge docs
  let selections := allRemoteImages.map Prod.fst
  selections.foldl (orchStep w fuel saveDir allRemoteImages)
    ⟨[], docs.map (fun d => (d.path, d.text)), 0, 0, [], []⟩

/-! ### Structured well-formed prologues

Spec §4.4 defines a prologue as "a sequence of import-like statements".  For
the idempotence claims we represent such a prologue structurally: a list of
lines, each either an import statement `import <clause> from "<spec>";` or a
non-import line, rendered with one line per entry and a trailing newline.
The well-formedness predicates carve out exactly the prologues on which the
modelled lexer (and `es-module-lexer`) agree. -/

inductive PLine where
  | imp (clause : Str) (spec : Str)
  | raw (line : Str)
  deriving Repr, DecidableEq

/-- The part of an import statement before the opening quote. -/
def importPre (clause : Str) : Str := strL "import " ++ clause ++ strL " from "

/-- Render one prologue line. -/
def renderPLine : PLine → Str
  | PLine.imp clause spec => importPre clause ++ '"' :: (spec ++ '"' :: [';'])
  | PLine.raw line => line

/-- Render a prologue: each line followed by a newline. -/
def renderPro (ls : List PLine) : Str :=
  (ls.map (fun l => renderPLine l ++ ['\n'])).flatten

/-- A well-formed import clause: nonempty, not starting with whitespace or a
closing brace, and free of quotes and newlines. -/
def wfClause (c : Str) : Bool :=
  !c.isEmpty && !(isWsChar (c.headD ' ')) && !(c.headD ' ' == '\x7d') &&
    c.all (fun ch => !(ch == '"')) && c.all (fun ch => !(ch == '\n'))

/-- A well-formed module specifier: free of quotes and newlines. -/
def wfSpec (s : Str) : Bool :=
  s.all (fun ch => !(ch == '"')) && s.all (fun ch => !(ch == '\n'))

/-- A well-formed prologue line: imports have well-formed parts; other lines
contain no newline and do not start like an import statement. -/
def wfPLine : PLine → Bool
  | PLine.imp c s => wfClause c && wfSpec s
  | PLine.raw l =>
      l.all (fun ch => !(ch == '\n')) && !((strL "import ").isPrefixOf l) &&
        !((strL "import\x7b").isPrefixOf l)

/-- A well-formed prologue. -/
def wfPro (ls : List PLine) : Bool := ls.all wfPLine

/-- The module specifiers of a prologue's import lines, in order. -/
def specsOf (ls : List PLine) : List Str :=
  ls.filterMap (fun l => match l with | PLine.imp _ s => some s | PLine.raw _ => none)

/-- The `Imp` record the modelled lexer produces for an import line rendered
at offset `o`. -/
def impOfAt (o : Nat) (c s : Str) : Imp :=
  ⟨s, o + ((importPre c).length + 1), o + ((importPre c).length + 1 + s.length), o,
    o + ((importPre c).length + 1 + s.length) + 1⟩

/-- The lexer result on a rendered prologue, computed structurally. -/
def prologueImps : Nat → List PLine → List Imp
  | _, [] => []
  | o, PLine.imp c s :: rest =>
    impOfAt o c s :: prologueImps (o + (renderPLine (PLine.imp c s)).length + 1) rest
  | o, PLine.raw l :: rest => prologueImps (o + (renderPLine (PLine.raw l)).length + 1) rest

/-- Is this line an `astro:assets` import? -/
def lineAstro : PLine → Bool
  | PLine.imp _ s => s == astroAssetsSpec
  | PLine.raw _ => false

/-- The clause produced by `insertIntoImport` when it splices `importName`
before the first closing brace of the clause (at index `j`): the text before
the brace is right-stripped, then the name is added with a space — preceded
by a comma unless the stripped text ends in an opening brace — and the brace
and the rest of the clause follow. -/
def mergedClause (c importName : Str) (j : Nat) : Str :=
  let kept := rstripWs (c.take j)
  kept ++
    (if (strL "\x7b").isSuffixOf (strL "import " ++ kept) then importName ++ [' ']
     else ',' :: ' ' :: (importName ++ [' '])) ++
    c.drop j

/-- Concrete failing run: every URL resolves to a one-chunk 200 response. -/
def exWorld : World := fun _ => Except.ok ⟨200, none, some 3, strL "OK", [[1, 2, 3]]⟩

/-- Two documents referencing the same remote URL. -/
def exDocA : Doc := ⟨strL "/site/a.html", strL "<img src=\"https://e.com/pic.png\">"⟩

/-- The second document referencing the same URL, in a subdirectory. -/
def exDocB : Doc := ⟨strL "/site/sub/b.html", strL "<img src=\"https://e.com/pic.png\">"⟩

/-- The orchestrator run over both documents with every image selected. -/
def exRun : OrchOutcome :=
  runDownloadRemoteImages exWorld 1 [exDocA, exDocB] (strL "/site/assets")

/-- A small concrete well-formed prologue: one import line and one plain
statement line. -/
def exPro : List PLine :=
  [PLine.imp (strL "heroImage") (strL "./assets/a.png"), PLine.raw (strL "const n = 1;")]

/-! ## Theorems -/

/-! ### Helper lemmas -/

theorem jsReplaceFirst_nil_nil (s : Str) : jsReplaceFirst [] [] s = s := by
  cases s <;> simp [jsReplaceFirst, List.isPrefixOf]

theorem imageFallback_ne_nil (b : Bool) (x : Str) (hx : x ≠ []) :
    (if b = true then strL "image" else x) ≠ [] := by
  cases b
  · simpa using hx
  · show strL "image" ≠ []
    decide

theorem emptyGuard_ne_nil (x : Str) : (if x.isEmpty = true then strL "image" else x) ≠ [] := by
  split
  · show strL "image" ≠ []
    decide
  · rename_i h
    intro hc
    exact h (by simp [hc])

theorem deriveNameFromTitle_ne_nil (t : Str) : deriveNameFromTitle t ≠ [] := by
  unfold deriveNameFromTitle
  split
  · decide
  · exact emptyGuard_ne_nil _

theorem urlToVariableName_ne_nil (s : Str) : urlToVariableName s ≠ [] := by
  unfold urlToVariableName
  exact deriveNameFromTitle_ne_nil _

theorem urlToImportName_ne_nil (s : Str) : urlToImportName s ≠ [] := by
  unfold urlToImportName
  cases h : parseUrl s with
  | none => decide
  | some u =>
    split
    · decide
    · simp only []
      split
      · decide
      · split
        · decide
        · exact deriveNameFromTitle_ne_nil _

/-! ### C2 — binding-name derivation -/

/-- C2 counterexample: the claim asserts that both `"Hero-Image.JPG"` and
`"hero_image.jpg"` derive exactly the identifier `"heroImage"`, but the code
never lowercases the first character: `"Hero-Image.JPG"` derives
`"HeroImage"`. -/
theorem urlToVariableName_hero_counterexample :
    urlToVariableName (strL "Hero-Image.JPG") = strL "HeroImage" ∧
    urlToImportName (strL "https://example.com/Hero-Image.JPG") = strL "HeroImage" ∧
    strL "HeroImage" ≠ strL "heroImage" := by decide

/-- C2 amended: the derivation is a pure function of the path;
`"hero_image.jpg"` yields `"heroImage"` but `"Hero-Image.JPG"` yields
`"HeroImage"` (the leading character keeps its case); `"123abc.png"` yields
`"img123abc"`, which starts with a non-digit; an empty derivation falls back
to `"image"`, and the result is never empty. -/
theorem urlToVariableName_amended :
    urlToVariableName (strL "Hero-Image.JPG") = strL "HeroImage" ∧
    urlToVariableName (strL "hero_image.jpg") = strL "heroImage" ∧
    urlToImportName (strL "https://example.com/Hero-Image.JPG") = strL "HeroImage" ∧
    urlToImportName (strL "https://example.com/hero_image.jpg") = strL "heroImage" ∧
    urlToVariableName (strL "123abc.png") = strL "img123abc" ∧
    digitStart (urlToVariableName (strL "123abc.png")) = false ∧
    urlToVariableName (strL "@#$.png") = strL "image" ∧
    (∀ s : Str, urlToVariableName s ≠ []) ∧
    (∀ s : Str, urlToImportName s ≠ []) :=
  ⟨by decide, by decide, by decide, by decide, by decide, by decide, by decide,
    urlToVariableName_ne_nil, urlToImportName_ne_nil⟩

/-! ### C10 — merge insertion without a closing brace -/

/-- C10: when the located import statement contains no closing brace (for
the entire prologue text unchanged. -/
theorem insertIntoImport_no_closing_brace (code : Str) (impSS impSE : Nat) (importName : Str)
    (h : indexOfSub (jsSlice code impSS impSE) ['\x7d'] = none) :
    insertIntoImport code impSS impSE importName = code := by
  unfold insertIntoImport
  simp [h]

/-- C10 witness: a default import of `astro:assets` (its statement spans
offsets 0–29 and has no brace) is left untouched. -/
theorem insertIntoImport_no_closing_brace_witness :
    insertIntoImport (strL "import A from \"astro:assets\";\n") 0 29 (strL "Picture")
      = strL "import A from \"astro:assets\";\n" :=
  insertIntoImport_no_closing_brace _ _ _ _ (by decide)

/-! ### C4 — progress reporting -/

/-- C4 counterexample: the claim requires the callback to be invoked after
every chunk with the total passed as 0 when the response declares no content
length; but the source guards each call with `totalBytes > 0`, so for a
response with one 3-byte chunk and no content length the callback receives
nothing instead of `(3, 0)`. -/
theorem downloadFile_progress_silent_when_total_unknown :
    (downloadFile (fun _ => Except.ok ⟨200, none, none, strL "OK", [[1, 2, 3]]⟩) 1
        (strL "https://e.com/x.png") (strL "/img/x.png") []).events = [] ∧
    ([] : List (Nat × Nat)) ≠ [(3, 0)] := by decide

/-- C4 amended: after each received chunk the supplied callback gets the
cumulative bytes read and the declared total — but only when the response
declares a positive content length; when the content length is missing the
callback is never invoked. -/
theorem downloadFile_progress_events (w : World) (fuel : Nat) (url dest : Str) (fs : Fs)
    (r : HttpResp) (hw : w url = Except.ok r) (hc : r.code = 200) :
    (downloadFile w (fuel + 1) url dest fs).events
      = if 0 < r.contentLength.getD 0 then progressEventsAux 0 (r.contentLength.getD 0) r.chunks
        else [] := by
  unfold downloadFile
  rw [hw]
  simp [hc, progressEvents]

/-- C4 witness: a direct 200 response with content length 10 and chunks of
3 and 1 bytes reports `(3, 10)` then `(4, 10)`. -/
theorem downloadFile_progress_events_witness :
    (downloadFile (fun _ => Except.ok ⟨200, none, some 10, strL "OK", [[1, 2, 3], [4]]⟩) 1
        (strL "u") (strL "/d/f") []).events
      = if 0 < (10 : Nat) then progressEventsAux 0 10 [[1, 2, 3], [4]] else [] :=
  downloadFile_progress_events _ 0 _ _ _ ⟨200, none, some 10, strL "OK", [[1, 2, 3], [4]]⟩ rfl rfl

/-! ### C9 — filename derivation and sanitization -/

/-- C9: the saved filename is a function of the URL's last pathname segment
alone; a segment without an extension gets `.jpg` appended before
sanitization; sanitization never leaves a path-hostile character, preserves
length, and leaves hostile-free names unchanged. -/
theorem candidateFilename_spec :
    (∀ u1 u2 : ParsedUrl,
        (splitOnChar '/' u1.pathname).getLastD [] = (splitOnChar '/' u2.pathname).getLastD [] →
        candidateFilename u1 = candidateFilename u2) ∧
    (∀ seg : Str, seg ≠ [] → extnameP seg = [] →
        candidateFromSegment seg = sanitizeFilename (seg ++ strL ".jpg")) ∧
    (∀ s : Str, ∀ c ∈ sanitizeFilename s, isHostileChar c = false) ∧
    (∀ s : Str, (sanitizeFilename s).length = s.length) ∧
    (∀ s : Str, (∀ c ∈ s, isHostileChar c = false) → sanitizeFilename s = s) := by
  refine ⟨?_, ?_, ?_, ?_, ?_⟩
  · intro u1 u2 h
    unfold candidateFilename
    rw [h]
  · intro seg hne hext
    have h1 : seg.isEmpty = false := by
      cases seg
      · exact absurd rfl hne
      · rfl
    unfold candidateFromSegment
    simp [h1, hext, jsReplaceFirst_nil_nil]
  · intro s c hc
    simp only [sanitizeFilename, List.mem_map] at hc
    obtain ⟨a, _, rfl⟩ := hc
    by_cases h : isHostileChar a = true
    · rw [if_pos h]; decide
    · rw [if_neg h]; simpa using h
  · intro s
    simp [sanitizeFilename]
  · intro s h
    have : ∀ c ∈ s, (if isHostileChar c then '_' else c) = c := by
      intro c hc
      simp [h c hc]
    calc sanitizeFilename s = s.map id := List.map_congr_left this
    _ = s := List.map_id s

/-- C9 witness: two URLs sharing the last segment `photo.png` get the same
filename; `photo` has no extension and becomes `photo.jpg` sanitized;
underscores are not hostile; `ab.png` is already clean. -/
theorem candidateFilename_spec_witness :
    candidateFilename ⟨strL "https:", strL "a.com", strL "/x/photo.png"⟩
      = candidateFilename ⟨strL "http:", strL "b.org", strL "/photo.png"⟩ ∧
    candidateFromSegment (strL "photo") = sanitizeFilename (strL "photo" ++ strL ".jpg") ∧
    isHostileChar '_' = false ∧
    sanitizeFilename (strL "ab.png") = strL "ab.png" :=
  ⟨candidateFilename_spec.1 _ _ (by decide),
    candidateFilename_spec.2.1 _ (by decide) (by decide),
    candidateFilename_spec.2.2.1 (strL "a b") '_' (by decide),
    candidateFilename_spec.2.2.2.2 _ (by decide)⟩

/-! ### Download-engine helper lemmas -/

theorem fsExists_fsWrite_self (p : Str) (c : List Nat) (fs : Fs) :
    fsExists p (fsWrite p c fs) = true := by
  simp [fsExists, fsWrite]

theorem fsExists_fsUnlink_self (p : Str) (fs : Fs) :
    fsExists p (fsUnlink p fs) = false := by
  induction fs with
  | nil => rfl
  | cons e t ih =>
    by_cases h : (e.1 == p) = true
    · simp only [fsUnlink, fsExists, List.filter_cons, h] at ih ⊢
      simp only [Bool.not_true, Bool.false_eq_true, if_false]
      exact ih
    · simp only [Bool.not_eq_true] at h
      simp only [fsUnlink, fsExists, List.filter_cons, h] at ih ⊢
      simp only [Bool.not_false, if_true, List.any_cons, h, Bool.false_or]
      exact ih

theorem fsUnlink_fsWrite (p : Str) (c : List Nat) (fs : Fs) :
    fsUnlink p (fsWrite p c fs) = fsUnlink p fs := by
  simp [fsUnlink, fsWrite, List.filter_filter]

/-- One-step unfolding of `downloadFile` on a redirect with a `Location`. -/
theorem downloadFile_redirect (w : World) (fuel : Nat) (url dest loc : Str) (fs : Fs)
    (r : HttpResp) (hw : w url = Except.ok r)
    (h30 : (r.code == 301 || r.code == 302) = true) (hl : r.location = some loc) :
    downloadFile w (fuel + 1) url dest fs
      = ⟨(downloadFile w fuel loc dest (fsUnlink dest (fsWrite dest [] fs))).res,
          (downloadFile w fuel loc dest (fsUnlink dest (fsWrite dest [] fs))).fs,
          (downloadFile w fuel loc dest (fsUnlink dest (fsWrite dest [] fs))).events,
          (downloadFile w fuel loc dest (fsUnlink dest (fsWrite dest [] fs))).fetches + 1⟩ := by
  simp only [downloadFile, hw, h30, hl, if_true]

/-- One-step unfolding of `downloadFile` on a terminal (non-redirecting)
response. -/
theorem downloadFile_terminal (w : World) (fuel : Nat) (url dest : Str) (fs : Fs)
    (r : HttpResp) (hw : w url = Except.ok r)
    (hterm : (r.code == 301 || r.code == 302) = false ∨ r.location = none) :
    downloadFile w (fuel + 1) url dest fs
      = if r.code != 200 then
          ⟨Except.error (failMsg r.code r.statusMessage), fsUnlink dest (fsWrite dest [] fs), [], 1⟩
        else
          ⟨Except.ok (), fsWrite dest r.chunks.flatten (fsWrite dest [] fs),
            progressEvents r.chunks (r.contentLength.getD 0), 1⟩ := by
  rcases hterm with h30 | hl
  · simp only [downloadFile, hw, h30, if_false, Bool.false_eq_true]
  · simp only [downloadFile, hw, hl]
    split <;> rfl

/-- Corresponding unfoldings of `terminalResp`. -/
theorem terminalResp_redirect (w : World) (fuel : Nat) (url loc : Str) (r : HttpResp)
    (hw : w url = Except.ok r) (h30 : (r.code == 301 || r.code == 302) = true)
    (hl : r.location = some loc) :
    terminalResp w (fuel + 1) url = terminalResp w fuel loc := by
  simp only [terminalResp, hw, h30, hl, if_true]

theorem terminalResp_terminal (w : World) (fuel : Nat) (url : Str) (r : HttpResp)
    (hw : w url = Except.ok r)
    (hterm : (r.code == 301 || r.code == 302) = false ∨ r.location = none) :
    terminalResp w (fuel + 1) url = some r := by
  rcases hterm with h30 | hl
  · simp only [terminalResp, hw, h30, if_false, Bool.false_eq_true]
  · simp only [terminalResp, hw, hl]
    split <;> rfl

/-- A successful `downloadFile` leaves the destination file present. -/
theorem downloadFile_ok_exists (w : World) :
    ∀ (fuel : Nat) (url dest : Str) (fs : Fs),
      (downloadFile w fuel url dest fs).res = Except.ok () →
      fsExists dest (downloadFile w fuel url dest fs).fs = true := by
  intro fuel
  induction fuel with
  | zero =>
    intro url dest fs h
    simp [downloadFile] at h
  | succ n ih =>
    intro url dest fs h
    cases hw : w url with
    | error m =>
      rw [downloadFile] at h
      rw [hw] at h
      simp at h
    | ok r =>
      by_cases h30 : (r.code == 301 || r.code == 302) = true
      · cases hl : r.location with
        | some loc =>
          rw [downloadFile_redirect w n url dest loc fs r hw h30 hl] at h ⊢
          exact ih loc dest _ h
        | none =>
          rw [downloadFile_terminal w n url dest fs r hw (Or.inr hl)] at h ⊢
          have hc : (r.code != 200) = true := by
            rcases Bool.or_eq_true_iff.mp h30 with h1 | h1 <;>
              · simp only [beq_iff_eq] at h1
                simp [h1]
          rw [if_pos hc] at h
          simp at h
      · simp only [Bool.not_eq_true] at h30
        rw [downloadFile_terminal w n url dest fs r hw (Or.inl h30)] at h ⊢
        by_cases hc : (r.code != 200) = true
        · rw [if_pos hc] at h
          simp at h
        · simp only [Bool.not_eq_true] at hc
          rw [if_neg (by simp [hc])] at h ⊢
          exact fsExists_fsWrite_self _ _ _

/-- A terminal non-200 response makes `downloadFile` reject with the status
message and removes the partial file. -/
theorem downloadFile_terminal_fail (w : World) :
    ∀ (fuel : Nat) (url dest : Str) (fs : Fs) (r : HttpResp),
      terminalResp w fuel url = some r →
      (r.code == 200) = false →
      (downloadFile w fuel url dest fs).res = Except.error (failMsg r.code r.statusMessage) ∧
      fsExists dest (downloadFile w fuel url dest fs).fs = false := by
  intro fuel
  induction fuel with
  | zero =>
    intro url dest fs r ht hc
    simp [terminalResp] at ht
  | succ n ih =>
    intro url dest fs r ht hc
    cases hw : w url with
    | error m =>
      rw [terminalResp] at ht
      rw [hw] at ht
      simp at ht
    | ok r0 =>
      by_cases h30 : (r0.code == 301 || r0.code == 302) = true
      · cases hl : r0.location with
        | some loc =>
          rw [terminalResp_redirect w n url loc r0 hw h30 hl] at ht
          rw [downloadFile_redirect w n url dest loc fs r0 hw h30 hl]
          exact ih loc dest _ r ht hc
        | none =>
          rw [terminalResp_terminal w n url r0 hw (Or.inr hl)] at ht
          have hr : r0 = r := by injection ht
          subst hr
          rw [downloadFile_terminal w n url dest fs r0 hw (Or.inr hl)]
          have hcc : (r0.code != 200) = true := by simp [bne]; simpa using hc
          rw [if_pos hcc]
          exact ⟨rfl, fsExists_fsUnlink_self _ _⟩
      · simp only [Bool.not_eq_true] at h30
        rw [terminalResp_terminal w n url r0 hw (Or.inl h30)] at ht
        have hr : r0 = r := by injection ht
        subst hr
        rw [downloadFile_terminal w n url dest fs r0 hw (Or.inl h30)]
        have hcc : (r0.code != 200) = true := by simp [bne]; simpa using hc
        rw [if_pos hcc]
        exact ⟨rfl, fsExists_fsUnlink_self _ _⟩

/-- Skip branch of `downloadRemoteImage`: an existing candidate file with the
overwrite flag unset yields a skipped outcome, no fetch, and no filesystem
change. -/
theorem downloadRemoteImage_skip (w : World) (fuel : Nat) (url dir : Str) (fs : Fs)
    (urlObj : ParsedUrl) (hu : parseUrl url = some urlObj)
    (hex : fsExists (joinP dir (candidateFilename urlObj)) fs = true) :
    downloadRemoteImage w fuel url dir false fs
      = ⟨⟨true, some (joinP dir (candidateFilename urlObj)), none, some true⟩, fs, [], 0⟩ := by
  simp only [downloadRemoteImage, hu]
  simp [hex]

/-! ### C6 — skip-if-exists and idempotent reruns -/

/-- C6: when the candidate filename already exists in the destination
directory and overwrite is unset, `downloadRemoteImage` reports a skipped
outcome pointing at the existing path, performs no fetch, and changes
nothing on disk (so no numerically-suffixed variant can appear); and after
any successful run a second run fetches nothing and leaves the filesystem
unchanged. -/
theorem downloadRemoteImage_skip_existing :
    (∀ (w : World) (fuel : Nat) (url dir : Str) (fs : Fs) (urlObj : ParsedUrl),
        parseUrl url = some urlObj →
        fsExists (joinP dir (candidateFilename urlObj)) fs = true →
        downloadRemoteImage w fuel url dir false fs
          = ⟨⟨true, some (joinP dir (candidateFilename urlObj)), none, some true⟩, fs, [], 0⟩) ∧
    (∀ (w : World) (fuel : Nat) (url dir : Str) (fs : Fs),
        (downloadRemoteImage w fuel url dir false fs).result.success = true →
        (downloadRemoteImage w fuel url dir false
            (downloadRemoteImage w fuel url dir false fs).fs).fetches = 0 ∧
        (downloadRemoteImage w fuel url dir false
            (downloadRemoteImage w fuel url dir false fs).fs).fs
          = (downloadRemoteImage w fuel url dir false fs).fs) := by
  constructor
  · intro w fuel url dir fs urlObj hu hex
    exact downloadRemoteImage_skip w fuel url dir fs urlObj hu hex
  · intro w fuel url dir fs hsucc
    cases hp : parseUrl url with
    | none =>
      rw [show downloadRemoteImage w fuel url dir false fs
            = ⟨⟨false, none, some (strL "Invalid URL"), none⟩, fs, [], 0⟩ by
          simp [downloadRemoteImage, hp]] at hsucc
      simp at hsucc
    | some urlObj =>
      by_cases hex : fsExists (joinP dir (candidateFilename urlObj)) fs = true
      · rw [downloadRemoteImage_skip w fuel url dir fs urlObj hp hex]
        rw [downloadRemoteImage_skip w fuel url dir fs urlObj hp hex]
        exact ⟨rfl, rfl⟩
      · simp only [Bool.not_eq_true] at hex
        have hrun :
            downloadRemoteImage w fuel url dir false fs
              = match (downloadFile w fuel url (joinP dir (candidateFilename urlObj)) fs).res with
                | Except.ok _ =>
                  ⟨⟨true, some (joinP dir (candidateFilename urlObj)), none, some false⟩,
                    (downloadFile w fuel url (joinP dir (candidateFilename urlObj)) fs).fs,
                    (downloadFile w fuel url (joinP dir (candidateFilename urlObj)) fs).events,
                    (downloadFile w fuel url (joinP dir (candidateFilename urlObj)) fs).fetches⟩
                | Except.error m =>
                  ⟨⟨false, none, some m, none⟩,
                    (downloadFile w fuel url (joinP dir (candidateFilename urlObj)) fs).fs,
                    (downloadFile w fuel url (joinP dir (candidateFilename urlObj)) fs).events,
                    (downloadFile w fuel url (joinP dir (candidateFilename urlObj)) fs).fetches⟩ := by
          simp only [downloadRemoteImage, hp, hex]
          simp
        cases hd : (downloadFile w fuel url (joinP dir (candidateFilename urlObj)) fs).res with
        | error m =>
          rw [hrun] at hsucc
          rw [hd] at hsucc
          simp at hsucc
        | ok u =>
          cases u
          have hex2 : fsExists (joinP dir (candidateFilename urlObj))
              (downloadRemoteImage w fuel url dir false fs).fs = true := by
            rw [hrun, hd]
            simpa using downloadFile_ok_exists w fuel url _ fs hd
          rw [downloadRemoteImage_skip w fuel url dir _ urlObj hp hex2]
          exact ⟨rfl, rfl⟩

/-- C6 witness: `/img/pic.png` already exists, so the run is skipped with no
fetch and no filesystem change. -/
theorem downloadRemoteImage_skip_existing_witness :
    downloadRemoteImage (fun _ => Except.ok ⟨200, none, none, strL "OK", []⟩) 3
        (strL "https://e.com/pic.png") (strL "/img") false [(strL "/img/pic.png", [7])]
      = ⟨⟨true, some (strL "/img/pic.png"), none, some true⟩, [(strL "/img/pic.png", [7])], [], 0⟩ :=
  downloadRemoteImage_skip_existing.1 (fun _ => Except.ok ⟨200, none, none, strL "OK", []⟩) 3
    (strL "https://e.com/pic.png") (strL "/img") [(strL "/img/pic.png", [7])]
    ⟨strL "https:", strL "e.com", strL "/pic.png"⟩ (by decide) (by decide)

/-! ### C5 — non-2xx terminal responses -/

/-- C5: for any URL whose terminal response (after following redirects) has a
non-2xx status, `downloadRemoteImage` returns a failed `DownloadResult`
(nothing is thrown past the engine boundary — the embedding is total and
every branch yields a `DownloadResult`) whose error carries the status code
and message, and no partially-written file remains at the destination
path. -/
theorem downloadRemoteImage_non2xx_failed (w : World) (fuel : Nat) (url dir : Str)
    (ov : Bool) (fs : Fs) (urlObj : ParsedUrl) (r : HttpResp)
    (hu : parseUrl url = some urlObj)
    (hskip : (fsExists (joinP dir (candidateFilename urlObj)) fs && !ov) = false)
    (hterm : terminalResp w fuel url = some r)
    (hcode : ¬(200 ≤ r.code ∧ r.code < 300)) :
    (downloadRemoteImage w fuel url dir ov fs).result.success = false ∧
    (downloadRemoteImage w fuel url dir ov fs).result.error
      = some (failMsg r.code r.statusMessage) ∧
    fsExists (joinP dir (candidateFilename urlObj))
      (downloadRemoteImage w fuel url dir ov fs).fs = false := by
  have hc : (r.code == 200) = false := by
    have : r.code ≠ 200 := by omega
    simpa using this
  obtain ⟨h1, h2⟩ := downloadFile_terminal_fail w fuel url (joinP dir (candidateFilename urlObj)) fs r hterm hc
  simp only [downloadRemoteImage, hu, hskip]
  simp only [Bool.false_eq_true, if_false]
  rw [h1]
  exact ⟨rfl, rfl, h2⟩

/-- C5 witness: a URL that 301-redirects once and then receives 404 yields a
failed result carrying "Failed to download: 404 Not Found", with no file left
at `/img/a.png`. -/
theorem downloadRemoteImage_non2xx_failed_witness :
    (downloadRemoteImage
        (fun u =>
          if u == strL "https://e.com/a.png" then
            Except.ok ⟨301, some (strL "https://e.com/b.png"), none, strL "Moved", []⟩
          else Except.ok ⟨404, none, none, strL "Not Found", []⟩)
        2 (strL "https://e.com/a.png") (strL "/img") false []).result.success = false ∧
    (downloadRemoteImage
        (fun u =>
          if u == strL "https://e.com/a.png" then
            Except.ok ⟨301, some (strL "https://e.com/b.png"), none, strL "Moved", []⟩
          else Except.ok ⟨404, none, none, strL "Not Found", []⟩)
        2 (strL "https://e.com/a.png") (strL "/img") false []).result.error
      = some (failMsg 404 (strL "Not Found")) ∧
    fsExists (joinP (strL "/img") (candidateFilename ⟨strL "https:", strL "e.com", strL "/a.png"⟩))
      (downloadRemoteImage
        (fun u =>
          if u == strL "https://e.com/a.png" then
            Except.ok ⟨301, some (strL "https://e.com/b.png"), none, strL "Moved", []⟩
          else Except.ok ⟨404, none, none, strL "Not Found", []⟩)
        2 (strL "https://e.com/a.png") (strL "/img") false []).fs = false :=
  downloadRemoteImage_non2xx_failed _ 2 _ _ false []
    ⟨strL "https:", strL "e.com", strL "/a.png"⟩ ⟨404, none, none, strL "Not Found", []⟩
    (by decide) (by decide) (by decide) (by decide)

/-! ### C3 — binding-name collisions in default-import insertion -/

/-- C3 counterexample: with `heroImage` already bound to `./a.png`, inserting
a default import of `./b.png` under the same derived name `heroImage`
silently appends the colliding import instead of surfacing any condition or
leaving the text unchanged — the function's result type has no error
channel at all. -/
theorem addImageImportToFrontmatter_silent_collision :
    addImageImportToFrontmatter (strL "import heroImage from \"./a.png\";\n")
        (strL "heroImage") (strL "./b.png")
      = strL "import heroImage from \"./a.png\";\nimport heroImage from \"./b.png\";\n" ∧
    strL "import heroImage from \"./a.png\";\nimport heroImage from \"./b.png\";\n"
      ≠ strL "import heroImage from \"./a.png\";\n" := by decide

/-- C3 amended: when an import with the exact same module path already exists
anywhere in the prologue, insertion is a no-op; but the inserter performs no
binding-name collision check whatsoever — whenever the module path is new it
unconditionally splices in the new default import statement (even when the
derived name is already bound to a different module path), surfacing nothing
to the caller. -/
theorem addImageImportToFrontmatter_amended :
    (∀ value variableName imagePath : Str,
        hasImportPath value (parseImports value) imagePath = true →
        addImageImportToFrontmatter value variableName imagePath = value) ∧
    (∀ value variableName imagePath : Str,
        hasImportPath value (parseImports value) imagePath = false →
        ∃ pre post : Str,
          addImageImportToFrontmatter value variableName imagePath
            = pre ++ renderDefaultImport variableName imagePath ++ post) := by
  constructor
  · intro value vn ip h
    simp [addImageImportToFrontmatter, h]
  · intro value vn ip h
    simp only [addImageImportToFrontmatter, h, Bool.false_eq_true, if_false]
    unfold insertImportAfterLast
    cases hg : (parseImports value).getLast? with
    | none =>
      exact ⟨['\n'], '\n' :: trimStartStr value, by simp⟩
    | some lastImport =>
      cases hi : indexOfSub (value.drop lastImport.se) ['\n'] with
      | none =>
        exact ⟨value.take lastImport.se, '\n' :: value.drop lastImport.se, by simp only []; rw [hi]⟩
      | some idx =>
        exact ⟨value.take (lastImport.se + idx + 1),
          '\n' :: value.drop (lastImport.se + idx + 1), by simp only []; rw [hi]⟩

/-- C3 amended witness: same module path is a no-op; a new module path under
a colliding binding name is silently spliced in. -/
theorem addImageImportToFrontmatter_amended_witness :
    addImageImportToFrontmatter (strL "import heroImage from \"./a.png\";\n")
        (strL "x") (strL "./a.png")
      = strL "import heroImage from \"./a.png\";\n" ∧
    (∃ pre post : Str,
        addImageImportToFrontmatter (strL "import heroImage from \"./a.png\";\n")
            (strL "heroImage") (strL "./b.png")
          = pre ++ renderDefaultImport (strL "heroImage") (strL "./b.png") ++ post) :=
  ⟨addImageImportToFrontmatter_amended.1 _ _ _ (by decide),
    addImageImportToFrontmatter_amended.2 _ _ _ (by decide)⟩

/-! ### C8 — the scanner's picture pass -/

theorem mem_uniqueFirstAux (u : Str) :
    ∀ (l seen : List Str), u ∈ uniqueFirstAux seen l ↔ (u ∈ l ∧ u ∉ seen) := by
  intro l
  induction l with
  | nil => intro seen; simp [uniqueFirstAux]
  | cons v rest ih =>
    intro seen
    have hcv : seen.contains v = true ↔ v ∈ seen := by
      simp [List.contains, List.elem_iff]
    by_cases hv : seen.contains v = true
    · rw [uniqueFirstAux, if_pos hv, ih]
      have hvmem : v ∈ seen := hcv.mp hv
      constructor
      · rintro ⟨h1, h2⟩
        exact ⟨List.mem_cons_of_mem _ h1, h2⟩
      · rintro ⟨h1, h2⟩
        rcases List.mem_cons.mp h1 with rfl | h1
        · exact absurd hvmem h2
        · exact ⟨h1, h2⟩
    · rw [uniqueFirstAux, if_neg hv]
      have hvnot : v ∉ seen := fun hm => hv (hcv.mpr hm)
      rw [List.mem_cons, ih]
      constructor
      · rintro (rfl | ⟨h1, h2⟩)
        · exact ⟨List.mem_cons_self _ _, hvnot⟩
        · refine ⟨List.mem_cons_of_mem _ h1, fun hm => h2 (List.mem_cons_of_mem _ hm)⟩
      · rintro ⟨h1, h2⟩
        rcases List.mem_cons.mp h1 with rfl | h1
        · exact Or.inl rfl
        · by_cases hu : u = v
          · exact Or.inl hu
          · exact Or.inr ⟨h1, fun hm => by
              rcases List.mem_cons.mp hm with h3 | h3
              · exact hu h3
              · exact h2 h3⟩

theorem nodup_uniqueFirstAux : ∀ (l seen : List Str), (uniqueFirstAux seen l).Nodup := by
  intro l
  induction l with
  | nil => intro seen; simp [uniqueFirstAux]
  | cons v rest ih =>
    intro seen
    by_cases hv : seen.contains v = true
    · rw [uniqueFirstAux, if_pos hv]
      exact ih seen
    · rw [uniqueFirstAux, if_neg hv]
      refine List.nodup_cons.mpr ⟨fun hm => ?_, ih (v :: seen)⟩
      exact ((mem_uniqueFirstAux v rest (v :: seen)).mp hm).2 (List.mem_cons_self _ _)

/-- C8 counterexample: a picture element whose `source` carries `x.png` and
whose inner `img` carries `y.png` produces three entries `[y, x, y]` — the
inner img is reported both by the img pass and by the picture pass, so the
output neither has one entry per distinct URL nor is in document order of
first occurrence (`x` occurs first in the document). -/
theorem findRemoteImageUrls_counterexample :
    (findRemoteImageUrls (strL "<picture><source srcset=\"https://a.com/x.png\"><img src=\"https://a.com/y.png\"></picture>")).map RemoteImage.url
      = [strL "https://a.com/y.png", strL "https://a.com/x.png", strL "https://a.com/y.png"] ∧
    ¬ ((findRemoteImageUrls (strL "<picture><source srcset=\"https://a.com/x.png\"><img src=\"https://a.com/y.png\"></picture>")).map RemoteImage.url).Nodup := by
  decide

/-- C8 amended: the scanner is a pure function returning the img-pass entries
followed by the picture-pass entries; within one picture element it emits
exactly one entry per distinct `src`/`srcset` URL — every URL of the element
is reported and the element contributes no duplicate URLs — but a URL sitting
in an `img` tag inside a picture element is additionally reported by the img
pass, and picture entries follow all img entries rather than document order
of first occurrence. -/
theorem findRemoteImageUrls_amended :
    (∀ text : Str, findRemoteImageUrls text = imgEntries text ++ pictureEntries text) ∧
    (∀ l : List Str, (uniqueFirst l).Nodup) ∧
    (∀ (text : Str) (m : Nat × Nat) (u : Str), m ∈ pictureMatches text →
        u ∈ srcUrls (jsSlice text m.1 m.2) →
        u ∈ (findRemoteImageUrls text).map RemoteImage.url) := by
  refine ⟨fun _ => rfl, fun l => nodup_uniqueFirstAux l [], ?_⟩
  intro text m u hm hu
  have humem : u ∈ uniqueFirst (srcUrls (jsSlice text m.1 m.2)) :=
    (mem_uniqueFirstAux u _ []).mpr ⟨hu, by simp⟩
  have : (⟨u, m.1, m.2, TagType.picture⟩ : RemoteImage) ∈ pictureEntries text := by
    unfold pictureEntries
    rw [List.mem_flatten]
    refine ⟨(uniqueFirst (srcUrls (jsSlice text m.1 m.2))).map
      (fun v => (⟨v, m.1, m.2, TagType.picture⟩ : RemoteImage)), ?_, ?_⟩
    · exact List.mem_map_of_mem _ hm
    · exact List.mem_map_of_mem _ humem
  have : (⟨u, m.1, m.2, TagType.picture⟩ : RemoteImage) ∈ findRemoteImageUrls text := by
    unfold findRemoteImageUrls
    exact List.mem_append_right _ this
  simpa using List.mem_map_of_mem RemoteImage.url this

/-- C8 amended witness: the lone URL of a single-source picture element is
reported. -/
theorem findRemoteImageUrls_amended_witness :
    strL "https://a.com/x.png"
      ∈ (findRemoteImageUrls (strL "<picture><source srcset=\"https://a.com/x.png\"></picture>")).map RemoteImage.url :=
  findRemoteImageUrls_amended.2.2 _ (0, 56) _ (by decide) (by decide)

/-! ### C1 — dedup across documents vs. rewrite fan-out -/

/-- C1 evaluated at the failing input: the engine is indeed invoked exactly
once for the shared URL, and the first document is rewritten to its own
relative path — but the second referencing document is left completely
unrewritten (its text still contains the remote URL), because the URL-keyed
dedup map keeps only the first referencing document and the rewrite loop
iterates that same map. -/
theorem runDownloadRemoteImages_misses_second_document :
    exRun.engineCalls = [strL "https://e.com/pic.png"] ∧
    textOf exRun.docsTexts (strL "/site/a.html") = strL "<img src=\"./assets/pic.png\">" ∧
    textOf exRun.docsTexts (strL "/site/sub/b.html") = strL "<img src=\"https://e.com/pic.png\">" ∧
    includesSub (textOf exRun.docsTexts (strL "/site/sub/b.html")) (strL "https://e.com/pic.png") = true ∧
    exRun.filesUpdated = [strL "/site/a.html"] := by decide

/-! ### C7 — string-splitting lemmas -/

theorem splitOnChar_ne_nil (sep : Char) : ∀ s : Str, splitOnChar sep s ≠ [] := by
  intro s
  induction s with
  | nil => simp [splitOnChar]
  | cons c cs ih =>
    rw [splitOnChar]
    cases h : splitOnChar sep cs with
    | nil => exact absurd h ih
    | cons hh tt =>
      dsimp only
      by_cases hc : (c == sep) = true <;> simp [hc]

theorem splitOnChar_cons_sep (sep : Char) (cs : Str) :
    splitOnChar sep (sep :: cs) = [] :: splitOnChar sep cs := by
  rw [splitOnChar]
  cases h : splitOnChar sep cs with
  | nil => exact absurd h (splitOnChar_ne_nil sep cs)
  | cons hh tt => simp

theorem splitOnChar_cons_of_ne (sep c : Char) (cs : Str) (h : (c == sep) = false) :
    splitOnChar sep (c :: cs)
      = (c :: (splitOnChar sep cs).headD []) :: (splitOnChar sep cs).tail := by
  rw [splitOnChar]
  cases hs : splitOnChar sep cs with
  | nil => exact absurd hs (splitOnChar_ne_nil sep cs)
  | cons hh tt => simp [h]

theorem splitOnChar_append_no_sep (sep : Char) :
    ∀ (a : Str), a.all (fun ch => !(ch == sep)) = true →
      ∀ rest : Str, splitOnChar sep (a ++ sep :: rest) = a :: splitOnChar sep rest := by
  intro a
  induction a with
  | nil =>
    intro _ rest
    simpa using splitOnChar_cons_sep sep rest
  | cons c cs ih =>
    intro ha rest
    rw [List.all_cons, Bool.and_eq_true] at ha
    have hc : (c == sep) = false := by simpa using ha.1
    rw [List.cons_append, splitOnChar_cons_of_ne sep c _ hc, ih ha.2 rest]
    simp

theorem splitOnChar_no_sep (sep : Char) :
    ∀ (a : Str), a.all (fun ch => !(ch == sep)) = true → splitOnChar sep a = [a] := by
  intro a
  induction a with
  | nil => intro _; rfl
  | cons c cs ih =>
    intro ha
    rw [List.all_cons, Bool.and_eq_true] at ha
    have hc : (c == sep) = false := by simpa using ha.1
    rw [splitOnChar_cons_of_ne sep c _ hc, ih ha.2]
    simp

theorem splitOnChar_two_seps (sep : Char) (a b c : Str)
    (ha : a.all (fun ch => !(ch == sep)) = true)
    (hb : b.all (fun ch => !(ch == sep)) = true)
    (hc : c.all (fun ch => !(ch == sep)) = true) :
    splitOnChar sep (a ++ sep :: (b ++ sep :: c)) = [a, b, c] := by
  rw [splitOnChar_append_no_sep sep a ha, splitOnChar_append_no_sep sep b hb,
    splitOnChar_no_sep sep c hc]

theorem splitOnChar_head_prefix (sep : Char) :
    ∀ (s h : Str) (t : List Str), splitOnChar sep s = h :: t → h <+: s := by
  intro s
  induction s with
  | nil =>
    intro h t hs
    simp [splitOnChar] at hs
    simp [hs.1]
  | cons c cs ih =>
    intro h t hs
    rw [splitOnChar] at hs
    cases hsp : splitOnChar sep cs with
    | nil => exact absurd hsp (splitOnChar_ne_nil sep cs)
    | cons hh tt =>
      rw [hsp] at hs
      dsimp only at hs
      by_cases hc : (c == sep) = true
      · rw [if_pos hc] at hs
        cases hs
        exact List.nil_prefix
      · rw [if_neg hc] at hs
        cases hs
        exact List.cons_prefix_cons.mpr ⟨rfl, ih _ _ hsp⟩

theorem take_append_shift (a b : Str) (j : Nat) :
    (a ++ b).take (a.length + j) = a ++ b.take j := by
  induction a with
  | nil => simp
  | cons c cs ih =>
    rw [List.cons_append, List.length_cons, Nat.succ_add, List.take_succ_cons, ih,
      List.cons_append]

theorem drop_append_shift (a b : Str) (j : Nat) :
    (a ++ b).drop (a.length + j) = b.drop j := by
  induction a with
  | nil => simp
  | cons c cs ih =>
    rw [List.cons_append, List.length_cons, Nat.succ_add, List.drop_succ_cons, ih]

theorem jsSlice_shift (a b : Str) (i j : Nat) :
    jsSlice (a ++ b) (a.length + i) (a.length + j) = jsSlice b i j := by
  unfold jsSlice
  rw [take_append_shift, drop_append_shift]

theorem jsSlice_exact (a b c : Str) :
    jsSlice (a ++ (b ++ c)) a.length (a.length + b.length) = b := by
  have := jsSlice_shift a (b ++ c) 0 b.length
  rw [Nat.add_zero] at this
  rw [this]
  unfold jsSlice
  rw [List.take_left' rfl]
  rfl

/-- The default-import statement text is the rendering of a structured
statement line. -/
theorem renderDefaultImport_eq (vn ip : Str) :
    renderDefaultImport vn ip = renderPLine (PLine.imp vn ip) := by
  unfold renderDefaultImport renderPLine importPre
  rw [show strL " from \"" = strL " from " ++ ['"'] from by decide,
    show strL "\";" = '"' :: [';'] from by decide]
  simp

/-! ### C7 — well-formedness projections -/

theorem wfClause_parts (c : Str) (hc : wfClause c = true) :
    c.isEmpty = false ∧ isWsChar (c.headD ' ') = false ∧ (c.headD ' ' == '\x7d') = false ∧
      c.all (fun ch => !(ch == '"')) = true ∧ c.all (fun ch => !(ch == '\n')) = true := by
  unfold wfClause at hc
  rw [Bool.and_eq_true, Bool.and_eq_true, Bool.and_eq_true, Bool.and_eq_true] at hc
  obtain ⟨⟨⟨⟨h1, h2⟩, h3⟩, h4⟩, h5⟩ := hc
  exact ⟨by simpa using h1, by simpa using h2, by simpa using h3, h4, h5⟩

theorem wfSpec_parts (s : Str) (hs : wfSpec s = true) :
    s.all (fun ch => !(ch == '"')) = true ∧ s.all (fun ch => !(ch == '\n')) = true := by
  unfold wfSpec at hs
  rw [Bool.and_eq_true] at hs
  exact hs

theorem wfRaw_parts (l : Str) (hl : wfPLine (PLine.raw l) = true) :
    l.all (fun ch => !(ch == '\n')) = true ∧ (strL "import ").isPrefixOf l = false ∧
      (strL "import\x7b").isPrefixOf l = false := by
  unfold wfPLine at hl
  rw [Bool.and_eq_true, Bool.and_eq_true] at hl
  obtain ⟨⟨h1, h2⟩, h3⟩ := hl
  exact ⟨h1, by simpa using h2, by simpa using h3⟩

theorem wfPro_cons (l : PLine) (ls : List PLine) (h : wfPro (l :: ls) = true) :
    wfPLine l = true ∧ wfPro ls = true := by
  unfold wfPro at h ⊢
  rw [List.all_cons, Bool.and_eq_true] at h
  exact h

/-! ### C7 — lexer correctness on rendered prologues -/

theorem importPre_no_quote (c : Str) (hcq : c.all (fun ch => !(ch == '"')) = true) :
    (importPre c).all (fun ch => !(ch == '"')) = true := by
  have l1 : (strL "import ").all (fun ch => !(ch == '"')) = true := by decide
  have l2 : (strL " from ").all (fun ch => !(ch == '"')) = true := by decide
  simp [importPre, List.all_append, hcq, l1, l2]

theorem parseLineImp_renderImp (c s : Str) (hc : wfClause c = true) (hs : wfSpec s = true) :
    parseLineImp (renderPLine (PLine.imp c s))
      = some ((importPre c).length + 1, (importPre c).length + 1 + s.length, s) := by
  obtain ⟨_, _, _, hcq, _⟩ := wfClause_parts c hc
  obtain ⟨hsq, _⟩ := wfSpec_parts s hs
  have hsplit : splitOnChar '"' (renderPLine (PLine.imp c s)) = [importPre c, s, [';']] := by
    show splitOnChar '"' (importPre c ++ '"' :: (s ++ '"' :: [';'])) = _
    rw [splitOnChar_append_no_sep '"' (importPre c) (importPre_no_quote c hcq),
      splitOnChar_append_no_sep '"' s hsq, splitOnChar_no_sep '"' [';'] (by decide)]
  unfold parseLineImp
  rw [hsplit]
  have hp1 : (strL "import ").isPrefixOf (importPre c) = true := by
    simp [importPre, List.append_assoc]
  have hp2 : (strL " from ").isSuffixOf (importPre c) = true := by
    show (strL " from ").isSuffixOf ((strL "import " ++ c) ++ strL " from ") = true
    rw [List.isSuffixOf_iff_suffix]
    exact List.suffix_append _ _
  simp [hp1, hp2]

theorem parseLineImp_raw (l : Str) (hl : wfPLine (PLine.raw l) = true) :
    parseLineImp l = none := by
  obtain ⟨_, h1, h2⟩ := wfRaw_parts l hl
  unfold parseLineImp
  split
  · rename_i pre spec post heq
    have hpre : pre <+: l := splitOnChar_head_prefix '"' l pre [spec, post] heq
    have ha : (strL "import ").isPrefixOf pre = false := by
      by_contra hx
      rw [Bool.not_eq_false, List.isPrefixOf_iff_prefix] at hx
      have : (strL "import ").isPrefixOf l = true := by
        rw [ List.isPrefixOf_iff_prefix]
        exact hx.trans hpre
      rw [this] at h1
      cases h1
    have hb : (strL "import\x7b").isPrefixOf pre = false := by
      by_contra hx
      rw [Bool.not_eq_false, List.isPrefixOf_iff_prefix] at hx
      have : (strL "import\x7b").isPrefixOf l = true := by
        rw [ List.isPrefixOf_iff_prefix]
        exact hx.trans hpre
      rw [this] at h2
      cases h2
    simp [ha, hb]
  · rfl

theorem renderPLine_no_nl (l : PLine) (hl : wfPLine l = true) :
    (renderPLine l).all (fun ch => !(ch == '\n')) = true := by
  cases l with
  | imp c s =>
    rw [wfPLine, Bool.and_eq_true] at hl
    obtain ⟨_, _, _, _, hcn⟩ := wfClause_parts c hl.1
    obtain ⟨_, hsn⟩ := wfSpec_parts s hl.2
    have l1 : (strL "import ").all (fun ch => !(ch == '\n')) = true := by decide
    have l2 : (strL " from ").all (fun ch => !(ch == '\n')) = true := by decide
    simp [renderPLine, importPre, List.all_append, List.all_cons, hcn, hsn, l1, l2]
  | raw l => exact (wfRaw_parts l hl).1

theorem renderPro_cons (l : PLine) (ls : List PLine) :
    renderPro (l :: ls) = renderPLine l ++ '\n' :: renderPro ls := by
  simp [renderPro]

theorem renderPro_append (a b : List PLine) :
    renderPro (a ++ b) = renderPro a ++ renderPro b := by
  simp [renderPro]

theorem splitOnNl_renderPro :
    ∀ ls : List PLine, wfPro ls = true →
      splitOnChar '\n' (renderPro ls) = ls.map renderPLine ++ [[]] := by
  intro ls
  induction ls with
  | nil => intro _; rfl
  | cons l rest ih =>
    intro h
    obtain ⟨h1, h2⟩ := wfPro_cons l rest h
    rw [renderPro_cons, splitOnChar_append_no_sep '\n' _ (renderPLine_no_nl l h1), ih h2]
    simp

theorem parseImportsFrom_render :
    ∀ (ls : List PLine) (o : Nat), wfPro ls = true →
      parseImportsFrom o (ls.map renderPLine ++ [[]]) = prologueImps o ls := by
  intro ls
  induction ls with
  | nil =>
    intro o _
    show parseImportsFrom o [[]] = []
    rw [parseImportsFrom]
    rw [show parseLineImp [] = none from rfl]
    rfl
  | cons l rest ih =>
    intro o h
    obtain ⟨h1, h2⟩ := wfPro_cons l rest h
    cases l with
    | imp c s =>
      rw [List.map_cons, List.cons_append, parseImportsFrom,
        parseLineImp_renderImp c s (by rw [wfPLine, Bool.and_eq_true] at h1; exact h1.1)
          (by rw [wfPLine, Bool.and_eq_true] at h1; exact h1.2)]
      rw [ih _ h2]
      rfl
    | raw lr =>
      rw [List.map_cons, List.cons_append, parseImportsFrom,
        show renderPLine (PLine.raw lr) = lr from rfl, parseLineImp_raw lr h1]
      rw [ih _ h2]
      rfl

theorem parseImports_render (ls : List PLine) (h : wfPro ls = true) :
    parseImports (renderPro ls) = prologueImps 0 ls := by
  unfold parseImports
  rw [splitOnNl_renderPro ls h, parseImportsFrom_render ls 0 h]

/-! ### C7 — specifier-span correctness -/

theorem prologueImps_slice :
    ∀ (ls : List PLine) (ctx : Str), wfPro ls = true →
      ∀ imp ∈ prologueImps ctx.length ls,
        jsSlice (ctx ++ renderPro ls) imp.s imp.e = imp.n := by
  intro ls
  induction ls with
  | nil =>
    intro ctx _ imp h
    simp [prologueImps] at h
  | cons l rest ih =>
    intro ctx hwf imp hmem
    obtain ⟨h1, h2⟩ := wfPro_cons l rest hwf
    cases l with
    | imp c s =>
      rw [prologueImps] at hmem
      rcases List.mem_cons.mp hmem with rfl | hmem2
      · have hshape : ctx ++ renderPro (PLine.imp c s :: rest)
            = (ctx ++ (importPre c ++ ['"'])) ++ (s ++ ('"' :: ';' :: '\n' :: renderPro rest)) := by
          rw [renderPro_cons]
          show ctx ++ ((importPre c ++ '"' :: (s ++ '"' :: [';'])) ++ '\n' :: renderPro rest) = _
          simp [List.append_assoc]
        have hlen : (ctx ++ (importPre c ++ ['"'])).length
            = ctx.length + ((importPre c).length + 1) := by
          simp
        have hs2 : (impOfAt ctx.length c s).s = (ctx ++ (importPre c ++ ['"'])).length := by
          rw [hlen]; rfl
        have he2 : (impOfAt ctx.length c s).e
            = (ctx ++ (importPre c ++ ['"'])).length + s.length := by
          rw [hlen]
          show ctx.length + ((importPre c).length + 1 + s.length) = _
          omega
        rw [hshape, hs2, he2]
        exact jsSlice_exact _ s _
      · have hc' : (ctx ++ (renderPLine (PLine.imp c s) ++ ['\n'])).length
            = ctx.length + (renderPLine (PLine.imp c s)).length + 1 := by
          simp
          omega
        have hmem3 : imp ∈ prologueImps
            (ctx ++ (renderPLine (PLine.imp c s) ++ ['\n'])).length rest := by
          rw [hc']
          exact hmem2
        have hres := ih (ctx ++ (renderPLine (PLine.imp c s) ++ ['\n'])) h2 imp hmem3
        have hshape : (ctx ++ (renderPLine (PLine.imp c s) ++ ['\n'])) ++ renderPro rest
            = ctx ++ renderPro (PLine.imp c s :: rest) := by
          rw [renderPro_cons]
          simp [List.append_assoc]
        rw [hshape] at hres
        exact hres
    | raw lr =>
      rw [prologueImps] at hmem
      have hc' : (ctx ++ (renderPLine (PLine.raw lr) ++ ['\n'])).length
          = ctx.length + (renderPLine (PLine.raw lr)).length + 1 := by
        simp
        omega
      have hmem3 : imp ∈ prologueImps
          (ctx ++ (renderPLine (PLine.raw lr) ++ ['\n'])).length rest := by
        rw [hc']
        exact hmem
      have hres := ih (ctx ++ (renderPLine (PLine.raw lr) ++ ['\n'])) h2 imp hmem3
      have hshape : (ctx ++ (renderPLine (PLine.raw lr) ++ ['\n'])) ++ renderPro rest
          = ctx ++ renderPro (PLine.raw lr :: rest) := by
        rw [renderPro_cons]
        simp [List.append_assoc]
      rw [hshape] at hres
      exact hres

theorem map_n_prologueImps : ∀ (ls : List PLine) (o : Nat),
    (prologueImps o ls).map Imp.n = specsOf ls := by
  intro ls
  induction ls with
  | nil => intro o; rfl
  | cons l rest ih =>
    intro o
    cases l with
    | imp c s => simp [prologueImps, specsOf, impOfAt, ih, List.filterMap_cons]
    | raw lr => simp [prologueImps, specsOf, ih, List.filterMap_cons]

theorem hasImportPath_render (ls : List PLine) (ip : Str) (h : wfPro ls = true) :
    (hasImportPath (renderPro ls) (parseImports (renderPro ls)) ip = true) ↔ ip ∈ specsOf ls := by
  rw [parseImports_render ls h]
  unfold hasImportPath
  rw [List.any_eq_true]
  constructor
  · rintro ⟨imp, hmem, hbeq⟩
    have hsl := prologueImps_slice ls [] h imp hmem
    rw [List.nil_append] at hsl
    rw [hsl] at hbeq
    have : imp.n = ip := by simpa using hbeq
    rw [← this, ← map_n_prologueImps ls 0]
    exact List.mem_map_of_mem _ hmem
  · intro hip
    rw [← map_n_prologueImps ls 0] at hip
    obtain ⟨imp, hmem, hn⟩ := List.mem_map.mp hip
    refine ⟨imp, hmem, ?_⟩
    have hsl := prologueImps_slice ls [] h imp hmem
    rw [List.nil_append] at hsl
    rw [hsl, hn]
    simp

/-! ### C7 — structural decomposition of the lexer result -/

theorem renderPro_cons_len (l : PLine) (ls : List PLine) :
    (renderPro (l :: ls)).length = (renderPLine l).length + 1 + (renderPro ls).length := by
  rw [renderPro_cons]
  simp
  omega

theorem specsOf_nil_of_prologueImps_nil :
    ∀ (ls : List PLine) (o : Nat), prologueImps o ls = [] → specsOf ls = [] := by
  intro ls
  induction ls with
  | nil => intro o _; rfl
  | cons l rest ih =>
    intro o h
    cases l with
    | imp c s => simp [prologueImps] at h
    | raw lr =>
      rw [prologueImps] at h
      simpa [specsOf, List.filterMap_cons] using ih _ h

theorem find?_prologueImps_decomp :
    ∀ (ls : List PLine) (o : Nat) (imp : Imp),
      (prologueImps o ls).find? (fun i => i.n == astroAssetsSpec) = some imp →
      ∃ ls₁ c ls₂, ls = ls₁ ++ PLine.imp c astroAssetsSpec :: ls₂ ∧
        (∀ x ∈ ls₁, lineAstro x = false) ∧
        imp = impOfAt (o + (renderPro ls₁).length) c astroAssetsSpec := by
  intro ls
  induction ls with
  | nil => intro o imp h; simp [prologueImps] at h
  | cons l rest ih =>
    intro o imp h
    cases l with
    | imp c s =>
      rw [prologueImps] at h
      by_cases hp : ((impOfAt o c s).n == astroAssetsSpec) = true
      · rw [List.find?_cons_of_pos (p := fun i : Imp => i.n == astroAssetsSpec) _ hp] at h
        have hs : s = astroAssetsSpec := by simpa [impOfAt] using hp
        subst hs
        refine ⟨[], c, rest, rfl, by simp, ?_⟩
        have himp : imp = impOfAt o c astroAssetsSpec := by
          injection h with h2
          exact h2.symm
        rw [himp]
        simp [renderPro]
      · rw [List.find?_cons_of_neg (p := fun i : Imp => i.n == astroAssetsSpec) _ hp] at h
        obtain ⟨ls₁, c1, ls₂, hdec, hfree, himp⟩ := ih _ _ h
        refine ⟨PLine.imp c s :: ls₁, c1, ls₂, by rw [hdec, List.cons_append], ?_, ?_⟩
        · intro x hx
          rcases List.mem_cons.mp hx with rfl | hx2
          · simpa [lineAstro, impOfAt] using hp
          · exact hfree x hx2
        · rw [himp]
          have : o + (renderPLine (PLine.imp c s)).length + 1 + (renderPro ls₁).length
              = o + (renderPro (PLine.imp c s :: ls₁)).length := by
            rw [renderPro_cons_len]
            omega
          rw [this]
    | raw lr =>
      rw [prologueImps] at h
      obtain ⟨ls₁, c1, ls₂, hdec, hfree, himp⟩ := ih _ _ h
      refine ⟨PLine.raw lr :: ls₁, c1, ls₂, by rw [hdec, List.cons_append], ?_, ?_⟩
      · intro x hx
        rcases List.mem_cons.mp hx with rfl | hx2
        · rfl
        · exact hfree x hx2
      · rw [himp]
        have : o + (renderPLine (PLine.raw lr)).length + 1 + (renderPro ls₁).length
            = o + (renderPro (PLine.raw lr :: ls₁)).length := by
          rw [renderPro_cons_len]
          omega
        rw [this]

theorem find?_prologueImps_of_decomp :
    ∀ (ls₁ : List PLine) (c : Str) (ls₂ : List PLine) (o : Nat),
      (∀ x ∈ ls₁, lineAstro x = false) →
      (prologueImps o (ls₁ ++ PLine.imp c astroAssetsSpec :: ls₂)).find?
          (fun i => i.n == astroAssetsSpec)
        = some (impOfAt (o + (renderPro ls₁).length) c astroAssetsSpec) := by
  intro ls₁
  induction ls₁ with
  | nil =>
    intro c ls₂ o _
    rw [List.nil_append, prologueImps]
    rw [List.find?_cons_of_pos (p := fun i : Imp => i.n == astroAssetsSpec) _ (by simp [impOfAt])]
    simp [renderPro]
  | cons l rest ih =>
    intro c ls₂ o hfree
    have hl : lineAstro l = false := hfree l (List.mem_cons_self _ _)
    have hrest : ∀ x ∈ rest, lineAstro x = false :=
      fun x hx => hfree x (List.mem_cons_of_mem _ hx)
    cases l with
    | imp c0 s0 =>
      rw [List.cons_append, prologueImps]
      rw [List.find?_cons_of_neg (p := fun i : Imp => i.n == astroAssetsSpec) _ (by simpa [lineAstro, impOfAt] using hl)]
      rw [ih c ls₂ _ hrest]
      have : o + (renderPLine (PLine.imp c0 s0)).length + 1 + (renderPro rest).length
          = o + (renderPro (PLine.imp c0 s0 :: rest)).length := by
        rw [renderPro_cons_len]
        omega
      rw [this]
    | raw lr =>
      rw [List.cons_append, prologueImps]
      rw [ih c ls₂ _ hrest]
      have : o + (renderPLine (PLine.raw lr)).length + 1 + (renderPro rest).length
          = o + (renderPro (PLine.raw lr :: rest)).length := by
        rw [renderPro_cons_len]
        omega
      rw [this]

theorem getLast?_prologueImps_decomp :
    ∀ (ls : List PLine) (o : Nat) (imp : Imp),
      (prologueImps o ls).getLast? = some imp →
      ∃ ls₁ c s ls₂, ls = ls₁ ++ PLine.imp c s :: ls₂ ∧ specsOf ls₂ = [] ∧
        imp = impOfAt (o + (renderPro ls₁).length) c s := by
  intro ls
  induction ls with
  | nil => intro o imp h; simp [prologueImps] at h
  | cons l rest ih =>
    intro o imp h
    cases l with
    | imp c s =>
      rw [prologueImps] at h
      cases ht : prologueImps (o + (renderPLine (PLine.imp c s)).length + 1) rest with
      | nil =>
        rw [ht] at h
        have himp : imp = impOfAt o c s := by
          simp [List.getLast?] at h
          exact h.symm
        refine ⟨[], c, s, rest, rfl, specsOf_nil_of_prologueImps_nil rest _ ht, ?_⟩
        rw [himp]
        simp [renderPro]
      | cons y ys =>
        rw [ht, List.getLast?_cons_cons] at h
        rw [← ht] at h
        obtain ⟨ls₁, c1, s1, ls₂, hdec, hnil, himp⟩ := ih _ _ h
        refine ⟨PLine.imp c s :: ls₁, c1, s1, ls₂, by rw [hdec, List.cons_append], hnil, ?_⟩
        rw [himp]
        have : o + (renderPLine (PLine.imp c s)).length + 1 + (renderPro ls₁).length
            = o + (renderPro (PLine.imp c s :: ls₁)).length := by
          rw [renderPro_cons_len]
          omega
        rw [this]
    | raw lr =>
      rw [prologueImps] at h
      obtain ⟨ls₁, c1, s1, ls₂, hdec, hnil, himp⟩ := ih _ _ h
      refine ⟨PLine.raw lr :: ls₁, c1, s1, ls₂, by rw [hdec, List.cons_append], hnil, ?_⟩
      rw [himp]
      have : o + (renderPLine (PLine.raw lr)).length + 1 + (renderPro ls₁).length
          = o + (renderPro (PLine.raw lr :: ls₁)).length := by
        rw [renderPro_cons_len]
        omega
      rw [this]

/-! ### C7 — substring-search and trailing-whitespace lemmas -/

theorem indexOfSubAux_shift (pat : Str) :
    ∀ (s : Str) (i : Nat), indexOfSubAux pat s i = (indexOfSubAux pat s 0).map (fun k => i + k) := by
  intro s
  induction s with
  | nil =>
    intro i
    rw [indexOfSubAux, indexOfSubAux]
    split <;> simp
  | cons c cs ih =>
    intro i
    rw [indexOfSubAux, indexOfSubAux]
    by_cases hp : pat.isPrefixOf (c :: cs) = true
    · simp [hp]
    · simp only [hp, Bool.false_eq_true, if_false]
      rw [ih (i + 1), ih 1]
      cases hk : indexOfSubAux pat cs 0 <;> simp
      omega

theorem indexOfSub_cons_shift (pat : Str) (c : Char) (cs : Str)
    (hnp : pat.isPrefixOf (c :: cs) = false) :
    indexOfSub (c :: cs) pat = (indexOfSub cs pat).map (fun k => 1 + k) := by
  unfold indexOfSub
  rw [indexOfSubAux]
  simp only [hnp, Bool.false_eq_true, if_false]
  exact indexOfSubAux_shift pat cs 1

theorem isPrefixOf_single_cons (ch c : Char) (cs : Str) :
    ([ch].isPrefixOf (c :: cs)) = (ch == c) := by
  simp [List.isPrefixOf]

theorem indexOfSub_none_iff_clean (ch : Char) :
    ∀ s : Str, indexOfSub s [ch] = none ↔ s.all (fun x => !(x == ch)) = true := by
  intro s
  induction s with
  | nil => simp [indexOfSub, indexOfSubAux]
  | cons c cs ih =>
    by_cases hc : (ch == c) = true
    · have hcc : ch = c := by simpa using hc
      subst hcc
      unfold indexOfSub
      rw [indexOfSubAux]
      simp [isPrefixOf_single_cons]
    · have hpre : ([ch].isPrefixOf (c :: cs)) = false := by
        rw [isPrefixOf_single_cons]
        simpa using hc
      rw [indexOfSub_cons_shift _ _ _ hpre]
      have hcsym : (c == ch) = false := by
        have : ch ≠ c := by simpa using hc
        simpa using Ne.symm this
      cases hk : indexOfSub cs [ch] with
      | none =>
        constructor
        · intro _
          rw [List.all_cons, Bool.and_eq_true]
          exact ⟨by simpa using hcsym, ih.mp hk⟩
        · intro _
          rfl
      | some k =>
        constructor
        · intro hcon
          simp at hcon
        · intro hcl
          rw [List.all_cons, Bool.and_eq_true] at hcl
          have hnone := ih.mpr hcl.2
          rw [hk] at hnone
          cases hnone

theorem indexOfSub_single_append_found (ch : Char) :
    ∀ (a : Str) (j : Nat), indexOfSub a [ch] = some j →
      ∀ b : Str, indexOfSub (a ++ b) [ch] = some j := by
  intro a
  induction a with
  | nil =>
    intro j h b
    simp [indexOfSub, indexOfSubAux] at h
  | cons c cs ih =>
    intro j h b
    by_cases hc : (ch == c) = true
    · have h0 : indexOfSub (c :: cs) [ch] = some 0 := by
        unfold indexOfSub
        rw [indexOfSubAux]
        simp [isPrefixOf_single_cons, hc]
      rw [h0] at h
      injection h with hj
      have hp2 : ([ch].isPrefixOf (c :: (cs ++ b))) = true := by
        rw [isPrefixOf_single_cons]
        exact hc
      rw [List.cons_append]
      unfold indexOfSub
      rw [indexOfSubAux]
      simp [hp2, ← hj]
    · have hpre : ([ch].isPrefixOf (c :: cs)) = false := by
        rw [isPrefixOf_single_cons]
        simpa using hc
      have hpre2 : ([ch].isPrefixOf (c :: (cs ++ b))) = false := by
        rw [isPrefixOf_single_cons]
        simpa using hc
      rw [indexOfSub_cons_shift _ _ _ hpre] at h
      cases hk : indexOfSub cs [ch] with
      | none => rw [hk] at h; simp at h
      | some k =>
        rw [hk] at h
        simp at h
        rw [List.cons_append, indexOfSub_cons_shift _ _ _ hpre2, ih k hk b]
        simp [h]

theorem indexOfSub_single_append_clean (ch : Char) :
    ∀ (a b : Str), a.all (fun x => !(x == ch)) = true →
      indexOfSub (a ++ b) [ch] = (indexOfSub b [ch]).map (fun k => a.length + k) := by
  intro a
  induction a with
  | nil =>
    intro b _
    show indexOfSub ([] ++ b) [ch] = _
    rw [List.nil_append]
    cases hk : indexOfSub b [ch] <;> simp [hk]
  | cons c cs ih =>
    intro b ha
    rw [List.all_cons, Bool.and_eq_true] at ha
    have hcsym : (ch == c) = false := by
      have : c ≠ ch := by simpa using ha.1
      simpa using Ne.symm this
    have hpre2 : ([ch].isPrefixOf (c :: (cs ++ b))) = false := by
      rw [isPrefixOf_single_cons]
      exact hcsym
    rw [List.cons_append, indexOfSub_cons_shift _ _ _ hpre2, ih b ha.2]
    cases hk : indexOfSub b [ch] <;> simp
    omega

theorem indexOfSub_single_found_spec (ch : Char) :
    ∀ (s : Str) (k : Nat), indexOfSub s [ch] = some k →
      (s.take k).all (fun x => !(x == ch)) = true ∧ s.drop k = ch :: s.drop (k + 1) := by
  intro s
  induction s with
  | nil =>
    intro k h
    simp [indexOfSub, indexOfSubAux] at h
  | cons c cs ih =>
    intro k h
    by_cases hc : (ch == c) = true
    · have hcc : ch = c := by simpa using hc
      subst hcc
      have h0 : indexOfSub (ch :: cs) [ch] = some 0 := by
        unfold indexOfSub
        rw [indexOfSubAux]
        simp [isPrefixOf_single_cons]
      rw [h0] at h
      injection h with hj
      rw [← hj]
      simp
    · have hpre : ([ch].isPrefixOf (c :: cs)) = false := by
        rw [isPrefixOf_single_cons]
        simpa using hc
      rw [indexOfSub_cons_shift _ _ _ hpre] at h
      cases hk : indexOfSub cs [ch] with
      | none => rw [hk] at h; simp at h
      | some k0 =>
        rw [hk] at h
        simp at h
        obtain ⟨h1, h2⟩ := ih k0 hk
        rw [← h, Nat.add_comm 1 k0]
        constructor
        · rw [List.take_succ_cons, List.all_cons, Bool.and_eq_true]
          refine ⟨?_, h1⟩
          have : c ≠ ch := fun he => by rw [he] at hc; simp at hc
          simpa using this
        · rw [List.drop_succ_cons, h2]
          rfl

theorem rstripWs_ne_nil_of_head (y : Str) (hy : y ≠ [])
    (hh : isWsChar (y.headD ' ') = false) : rstripWs y ≠ [] := by
  intro hc
  unfold rstripWs at hc
  have hdw : (y.reverse.dropWhile isWsChar) = [] := by
    have := congrArg List.reverse hc
    simpa using this
  rw [List.dropWhile_eq_nil_iff] at hdw
  cases y with
  | nil => exact hy rfl
  | cons c cs =>
    have hcmem : c ∈ (c :: cs).reverse := by simp
    have := hdw c hcmem
    rw [show (c :: cs).headD ' ' = c from rfl] at hh
    rw [this] at hh
    cases hh

theorem rstripWs_prefix (y : Str) : rstripWs y <+: y := by
  unfold rstripWs
  have h1 : y.reverse.dropWhile isWsChar <:+ y.reverse := List.dropWhile_suffix _
  have h2 := List.reverse_prefix.mpr h1
  simpa using h2

theorem rstripWs_append (a x : Str) (hx : rstripWs x ≠ []) :
    rstripWs (a ++ x) = a ++ rstripWs x := by
  unfold rstripWs at hx ⊢
  rw [List.reverse_append, List.dropWhile_append]
  have hne : (x.reverse.dropWhile isWsChar).isEmpty = false := by
    cases hxx : x.reverse.dropWhile isWsChar with
    | nil =>
      rw [hxx] at hx
      simp at hx
    | cons c cs => rfl
  rw [hne]
  simp

theorem headD_of_prefix (p y : Str) (hp : p <+: y) (hne : p ≠ []) (d : Char) :
    p.headD d = y.headD d := by
  obtain ⟨t, rfl⟩ := hp
  cases p with
  | nil => exact absurd rfl hne
  | cons c cs => rfl

theorem all_of_prefix (p y : Str) (f : Char → Bool) (hp : p <+: y) (hy : y.all f = true) :
    p.all f = true := by
  obtain ⟨t, rfl⟩ := hp
  rw [List.all_append, Bool.and_eq_true] at hy
  exact hy.1

theorem includesSub_cons_of (pat : Str) (c : Char) (cs : Str)
    (h : includesSub cs pat = true) : includesSub (c :: cs) pat = true := by
  unfold includesSub indexOfSub at h ⊢
  rw [indexOfSubAux]
  by_cases hp : pat.isPrefixOf (c :: cs) = true
  · simp [hp]
  · simp only [hp, Bool.false_eq_true, if_false]
    rw [indexOfSubAux_shift pat cs 1]
    cases hk : indexOfSubAux pat cs 0 with
    | none => rw [hk] at h; cases h
    | some k => simp

theorem includesSub_of_infix (s pat : Str) (h : pat <:+: s) : includesSub s pat = true := by
  obtain ⟨a, b, rfl⟩ := h
  induction a with
  | nil =>
    unfold includesSub indexOfSub
    cases hpb : pat ++ b with
    | nil =>
      rw [List.nil_append, hpb, indexOfSubAux]
      have : pat = [] := by
        cases pat
        · rfl
        · simp at hpb
      simp [this]
    | cons c cs =>
      rw [List.nil_append, hpb, indexOfSubAux]
      have : pat.isPrefixOf (c :: cs) = true := by
        rw [← hpb, List.isPrefixOf_iff_prefix]
        exact List.prefix_append pat b
      simp [this]
  | cons c cs ih =>
    rw [List.cons_append]
    exact includesSub_cons_of pat c _ ih

theorem take_append_of_le (j : Nat) :
    ∀ (a b : Str), j ≤ a.length → (a ++ b).take j = a.take j := by
  induction j with
  | zero => intro a b _; simp
  | succ n ih =>
    intro a b h
    cases a with
    | nil => simp at h
    | cons c cs =>
      rw [List.cons_append, List.take_succ_cons, List.take_succ_cons,
        ih cs b (by simpa using h)]

theorem drop_append_of_le (j : Nat) :
    ∀ (a b : Str), j ≤ a.length → (a ++ b).drop j = a.drop j ++ b := by
  induction j with
  | zero => intro a b _; simp
  | succ n ih =>
    intro a b h
    cases a with
    | nil => simp at h
    | cons c cs =>
      rw [List.cons_append, List.drop_succ_cons, List.drop_succ_cons,
        ih cs b (by simpa using h)]

/-! ### C7 — statement slicing and splicing -/

theorem renderPro_decomp_shape (ls₁ : List PLine) (c s : Str) (ls₂ : List PLine) :
    renderPro (ls₁ ++ PLine.imp c s :: ls₂)
      = renderPro ls₁ ++ ((importPre c ++ '"' :: (s ++ ['"'])) ++ (';' :: '\n' :: renderPro ls₂)) := by
  rw [renderPro_append, renderPro_cons]
  show _ ++ ((importPre c ++ '"' :: (s ++ '"' :: [';'])) ++ '\n' :: renderPro ls₂) = _
  simp [List.append_assoc]

theorem impOfAt_ss (o : Nat) (c s : Str) : (impOfAt o c s).ss = o := rfl

theorem impOfAt_se_eq (o : Nat) (c s : Str) :
    (impOfAt o c s).se = o + (importPre c ++ '"' :: (s ++ ['"'])).length := by
  show o + ((importPre c).length + 1 + s.length) + 1 = _
  simp
  omega

theorem slice_stmt (ls₁ : List PLine) (c s : Str) (ls₂ : List PLine) :
    jsSlice (renderPro (ls₁ ++ PLine.imp c s :: ls₂))
        (impOfAt (renderPro ls₁).length c s).ss (impOfAt (renderPro ls₁).length c s).se
      = importPre c ++ '"' :: (s ++ ['"']) := by
  rw [renderPro_decomp_shape, impOfAt_ss, impOfAt_se_eq]
  exact jsSlice_exact _ _ _

theorem splice_stmt (ls₁ : List PLine) (c s : Str) (ls₂ : List PLine) (newStmt : Str) :
    (renderPro (ls₁ ++ PLine.imp c s :: ls₂)).take (impOfAt (renderPro ls₁).length c s).ss
        ++ newStmt
        ++ (renderPro (ls₁ ++ PLine.imp c s :: ls₂)).drop (impOfAt (renderPro ls₁).length c s).se
      = renderPro ls₁ ++ newStmt ++ (';' :: '\n' :: renderPro ls₂) := by
  rw [renderPro_decomp_shape, impOfAt_ss, impOfAt_se_eq]
  rw [show renderPro ls₁ ++ ((importPre c ++ '"' :: (s ++ ['"'])) ++ (';' :: '\n' :: renderPro ls₂))
        = (renderPro ls₁ ++ (importPre c ++ '"' :: (s ++ ['"']))) ++ (';' :: '\n' :: renderPro ls₂)
      from by simp [List.append_assoc]]
  rw [take_append_of_le _ _ _ (by simp), take_append_of_le _ _ _ (by simp), List.take_length,
    List.drop_left' (by simp)]

/-! ### C7 — the prepend branch -/

theorem parseImports_prepend (c s t : Str) (hc : wfClause c = true) (hs : wfSpec s = true) :
    parseImports ('\n' :: (renderPLine (PLine.imp c s) ++ '\n' :: t))
      = impOfAt 1 c s
          :: parseImportsFrom (1 + (renderPLine (PLine.imp c s)).length + 1) (splitOnChar '\n' t) := by
  have hwfl : wfPLine (PLine.imp c s) = true := by
    rw [wfPLine, Bool.and_eq_true]
    exact ⟨hc, hs⟩
  have hsplit : splitOnChar '\n' ('\n' :: (renderPLine (PLine.imp c s) ++ '\n' :: t))
      = [] :: renderPLine (PLine.imp c s) :: splitOnChar '\n' t := by
    rw [splitOnChar_cons_sep, splitOnChar_append_no_sep '\n' _ (renderPLine_no_nl _ hwfl)]
  unfold parseImports
  rw [hsplit, parseImportsFrom, show parseLineImp [] = none from rfl, parseImportsFrom,
    parseLineImp_renderImp c s hc hs]
  dsimp only
  rw [show (0 : Nat) + List.length ([] : Str) + 1 = 1 from rfl]
  rfl

theorem prepend_shape (c s t : Str) :
    '\n' :: (renderPLine (PLine.imp c s) ++ '\n' :: t)
      = ('\n' :: (importPre c ++ ['"'])) ++ (s ++ ('"' :: ';' :: '\n' :: t)) := by
  show '\n' :: ((importPre c ++ '"' :: (s ++ '"' :: [';'])) ++ '\n' :: t) = _
  simp [List.append_assoc]

theorem slice_prepend (c s t : Str) :
    jsSlice ('\n' :: (renderPLine (PLine.imp c s) ++ '\n' :: t))
        (impOfAt 1 c s).s (impOfAt 1 c s).e = s := by
  rw [prepend_shape]
  have h1 : (impOfAt 1 c s).s = ('\n' :: (importPre c ++ ['"'])).length := by
    show 1 + ((importPre c).length + 1) = _
    simp
    omega
  have h2 : (impOfAt 1 c s).e = ('\n' :: (importPre c ++ ['"'])).length + s.length := by
    show 1 + ((importPre c).length + 1 + s.length) = _
    simp
    omega
  rw [h1, h2]
  exact jsSlice_exact _ _ _

theorem hasImportPath_prepend (vn ip t : Str) (hc : wfClause vn = true) (hs : wfSpec ip = true) :
    hasImportPath ('\n' :: (renderPLine (PLine.imp vn ip) ++ '\n' :: t))
        (parseImports ('\n' :: (renderPLine (PLine.imp vn ip) ++ '\n' :: t))) ip = true := by
  rw [parseImports_prepend vn ip t hc hs]
  unfold hasImportPath
  rw [List.any_cons]
  rw [show (impOfAt 1 vn ip).s = (impOfAt 1 vn ip).s from rfl]
  rw [slice_prepend vn ip t]
  simp

/-! ### C7 — second-run no-ops of `insertIntoImport` -/

theorem insertIntoImport_noop_of_includes (code : Str) (ss se : Nat) (importName : Str)
    (hinc : includesSub (jsSlice code ss se) importName = true) :
    insertIntoImport code ss se importName = code := by
  unfold insertIntoImport
  simp only []
  cases hb : indexOfSub (jsSlice code ss se) ['\x7d'] with
  | none => rfl
  | some k => simp [hinc]

theorem prepend_stmt_shape (c s t : Str) :
    '\n' :: (renderPLine (PLine.imp c s) ++ '\n' :: t)
      = ['\n'] ++ ((importPre c ++ '"' :: (s ++ ['"'])) ++ (';' :: '\n' :: t)) := by
  show '\n' :: ((importPre c ++ '"' :: (s ++ '"' :: [';'])) ++ '\n' :: t) = _
  simp [List.append_assoc]

theorem slice_stmt_prepend (c s t : Str) :
    jsSlice ('\n' :: (renderPLine (PLine.imp c s) ++ '\n' :: t))
        (impOfAt 1 c s).ss (impOfAt 1 c s).se
      = importPre c ++ '"' :: (s ++ ['"']) := by
  rw [prepend_stmt_shape, impOfAt_ss, impOfAt_se_eq]
  exact jsSlice_exact ['\n'] _ _

/-- The clause of an import line is an infix of the statement slice the
lexer reports for it. -/
theorem clause_infix_stmt (c x : Str) : c <:+: importPre c ++ x := by
  refine ⟨strL "import ", strL " from " ++ x, ?_⟩
  simp [importPre, List.append_assoc]

theorem addNamed_prepend_noop (importName c t P : Str) (hc : wfClause c = true)
    (hinc : includesSub (importPre c ++ '"' :: (astroAssetsSpec ++ ['"'])) importName = true) :
    addNamedImportToFrontmatter importName P
        ('\n' :: (renderPLine (PLine.imp c astroAssetsSpec) ++ '\n' :: t))
      = '\n' :: (renderPLine (PLine.imp c astroAssetsSpec) ++ '\n' :: t) := by
  unfold addNamedImportToFrontmatter
  simp only []
  rw [parseImports_prepend c astroAssetsSpec t hc (by decide)]
  rw [List.find?_cons_of_pos (p := fun i : Imp => i.n == astroAssetsSpec) _ (by simp [impOfAt])]
  exact insertIntoImport_noop_of_includes _ _ _ _ (by rw [slice_stmt_prepend]; exact hinc)

theorem addNamed_render_noop (importName P : Str) (ls₁ : List PLine) (c : Str) (ls₂ : List PLine)
    (h : wfPro (ls₁ ++ PLine.imp c astroAssetsSpec :: ls₂) = true)
    (hfree : ∀ x ∈ ls₁, lineAstro x = false)
    (hinc : includesSub (importPre c ++ '"' :: (astroAssetsSpec ++ ['"'])) importName = true) :
    addNamedImportToFrontmatter importName P (renderPro (ls₁ ++ PLine.imp c astroAssetsSpec :: ls₂))
      = renderPro (ls₁ ++ PLine.imp c astroAssetsSpec :: ls₂) := by
  unfold addNamedImportToFrontmatter
  simp only []
  rw [parseImports_render _ h, find?_prologueImps_of_decomp ls₁ c ls₂ 0 hfree, Nat.zero_add]
  exact insertIntoImport_noop_of_includes _ _ _ _ (by rw [slice_stmt]; exact hinc)

/-! ### C7 — locating the closing brace of an `astro:assets` statement -/

theorem brace_index_stmt_some (c : Str) (j : Nat) (hj : indexOfSub c ['\x7d'] = some j) :
    indexOfSub (importPre c ++ '"' :: (astroAssetsSpec ++ ['"'])) ['\x7d'] = some (7 + j) := by
  rw [show importPre c ++ '"' :: (astroAssetsSpec ++ ['"'])
        = strL "import " ++ (c ++ (strL " from " ++ '"' :: (astroAssetsSpec ++ ['"'])))
      from by simp [importPre, List.append_assoc]]
  rw [indexOfSub_single_append_clean _ _ _ (by decide)]
  rw [indexOfSub_single_append_found _ c j hj _]
  rfl

theorem brace_index_stmt_none (c : Str) (hj : indexOfSub c ['\x7d'] = none) :
    indexOfSub (importPre c ++ '"' :: (astroAssetsSpec ++ ['"'])) ['\x7d'] = none := by
  rw [show importPre c ++ '"' :: (astroAssetsSpec ++ ['"'])
        = strL "import " ++ (c ++ (strL " from " ++ '"' :: (astroAssetsSpec ++ ['"'])))
      from by simp [importPre, List.append_assoc]]
  rw [indexOfSub_single_append_clean _ _ _ (by decide)]
  rw [indexOfSub_single_append_clean _ _ _ ((indexOfSub_none_iff_clean _ c).mp hj)]
  rw [show indexOfSub (strL " from " ++ '"' :: (astroAssetsSpec ++ ['"'])) ['\x7d'] = none
      from by decide]
  rfl

/-! ### C7 — the merged clause is well formed and keeps the name -/

theorem headD_take_pos (c : Str) (j : Nat) (hj : 1 ≤ j) (hc : c ≠ []) (d : Char) :
    (c.take j).headD d = c.headD d := by
  cases c with
  | nil => exact absurd rfl hc
  | cons ch cs =>
    cases j with
    | zero => omega
    | succ n => rw [List.take_succ_cons]; rfl

theorem headD_append_left (a b : Str) (ha : a ≠ []) (d : Char) :
    (a ++ b).headD d = a.headD d := by
  cases a with
  | nil => exact absurd rfl ha
  | cons ch cs => rfl

theorem wfClause_intro (c : Str) (h1 : c ≠ []) (h2 : isWsChar (c.headD ' ') = false)
    (h3 : (c.headD ' ' == '\x7d') = false)
    (h4 : c.all (fun ch => !(ch == '"')) = true)
    (h5 : c.all (fun ch => !(ch == '\n')) = true) : wfClause c = true := by
  have hie : c.isEmpty = false := by
    cases c
    · exact absurd rfl h1
    · rfl
  unfold wfClause
  rw [hie, h2, h3, h4, h5]
  rfl

theorem mergedClause_wf (c importName : Str) (j : Nat) (hc : wfClause c = true)
    (hj1 : 1 ≤ j)
    (hq : importName.all (fun ch => !(ch == '"')) = true)
    (hnl : importName.all (fun ch => !(ch == '\n')) = true) :
    wfClause (mergedClause c importName j) = true := by
  obtain ⟨hie, hhw, hhb, hcq, hcn⟩ := wfClause_parts c hc
  have hcne : c ≠ [] := by
    intro h0
    rw [h0] at hie
    simp at hie
  have htkne : c.take j ≠ [] := by
    cases c with
    | nil => exact absurd rfl hcne
    | cons ch cs =>
      cases j with
      | zero => omega
      | succ n => rw [List.take_succ_cons]; exact List.cons_ne_nil _ _
  have hkne : rstripWs (c.take j) ≠ [] := by
    apply rstripWs_ne_nil_of_head _ htkne
    rw [headD_take_pos c j hj1 hcne ' ']
    exact hhw
  have hkprefc : rstripWs (c.take j) <+: c := ( rstripWs_prefix _).trans (List.take_prefix j c)
  have hhead : (rstripWs (c.take j)).headD ' ' = c.headD ' ' :=
    headD_of_prefix _ _ hkprefc hkne ' '
  have hmcall : ∀ f : Char → Bool, f ' ' = true → f ',' = true →
      importName.all f = true → c.all f = true →
      (mergedClause c importName j).all f = true := by
    intro f hsp hcm hn hcf
    have hsplit : (c.take j).all f = true ∧ (c.drop j).all f = true := by
      have h0 := hcf
      rw [← List.take_append_drop j c, List.all_append, Bool.and_eq_true] at h0
      exact h0
    have hkf : (rstripWs (c.take j)).all f = true :=
      all_of_prefix _ _ f ( rstripWs_prefix _) hsplit.1
    simp only [mergedClause, List.all_append, Bool.and_eq_true]
    refine ⟨⟨hkf, ?_⟩, hsplit.2⟩
    split
    · simp [List.all_append, List.all_cons, hn, hsp]
    · simp [List.all_append, List.all_cons, hn, hsp, hcm]
  have hne2 : mergedClause c importName j ≠ [] := by
    cases hk : rstripWs (c.take j) with
    | nil => exact absurd hk hkne
    | cons a as => simp [mergedClause, hk]
  have hkm : rstripWs (c.take j)
      ++ (if (strL "\x7b").isSuffixOf (strL "import " ++ rstripWs (c.take j))
          then importName ++ [' '] else ',' :: ' ' :: (importName ++ [' '])) ≠ [] := by
    cases hk : rstripWs (c.take j) with
    | nil => exact absurd hk hkne
    | cons a as => simp [hk]
  have hhd : (mergedClause c importName j).headD ' ' = c.headD ' ' := by
    simp only [mergedClause]
    rw [headD_append_left _ _ hkm ' ', headD_append_left _ _ hkne ' ', hhead]
  apply wfClause_intro
  · exact hne2
  · rw [hhd]; exact hhw
  · rw [hhd]; exact hhb
  · exact hmcall _ (by decide) (by decide) hq hcq
  · exact hmcall _ (by decide) (by decide) hnl hcn

theorem importName_infix_mergedClause (c importName : Str) (j : Nat) :
    importName <:+: mergedClause c importName j := by
  simp only [mergedClause]
  split
  · exact ⟨rstripWs (c.take j), [' '] ++ c.drop j, by simp [List.append_assoc]⟩
  · exact ⟨rstripWs (c.take j) ++ [','] ++ [' '], [' '] ++ c.drop j,
      by simp [List.append_assoc]⟩

/-- The insertion case of `insertIntoImport` on a rendered prologue: when the
clause of the targeted `astro:assets` import has its first closing brace at
index `j` and the statement does not yet contain the binding name, the result
is the same prologue with the clause replaced by `mergedClause`. -/
theorem insertIntoImport_render_surgery (ls₁ : List PLine) (c : Str) (ls₂ : List PLine)
    (importName : Str) (j : Nat) (hc : wfClause c = true)
    (hj : indexOfSub c ['\x7d'] = some j)
    (hninc : includesSub (importPre c ++ '"' :: (astroAssetsSpec ++ ['"'])) importName = false) :
    insertIntoImport (renderPro (ls₁ ++ PLine.imp c astroAssetsSpec :: ls₂))
        (impOfAt (renderPro ls₁).length c astroAssetsSpec).ss
        (impOfAt (renderPro ls₁).length c astroAssetsSpec).se importName
      = renderPro (ls₁ ++ PLine.imp (mergedClause c importName j) astroAssetsSpec :: ls₂) := by
  obtain ⟨hcl, hdr⟩ := indexOfSub_single_found_spec '\x7d' c j hj
  obtain ⟨hie, hhw, hhb, hcq, hcn⟩ := wfClause_parts c hc
  have hcne : c ≠ [] := by
    intro h0
    rw [h0] at hie
    simp at hie
  have hjle : j ≤ c.length := by
    by_contra hlt
    rw [List.drop_eq_nil_of_le (by omega)] at hdr
    simp at hdr
  have hj1 : 1 ≤ j := by
    by_contra h0
    have hj0 : j = 0 := by omega
    subst hj0
    rw [List.drop_zero] at hdr
    rw [hdr] at hhb
    simp at hhb
  have htkne : c.take j ≠ [] := by
    cases c with
    | nil => exact absurd rfl hcne
    | cons ch cs =>
      cases j with
      | zero => omega
      | succ n => rw [List.take_succ_cons]; exact List.cons_ne_nil _ _
  have hkept : rstripWs (c.take j) ≠ [] := by
    apply rstripWs_ne_nil_of_head _ htkne
    rw [headD_take_pos c j hj1 hcne ' ']
    exact hhw
  have htake : (importPre c ++ '"' :: (astroAssetsSpec ++ ['"'])).take (7 + j)
      = strL "import " ++ c.take j := by
    rw [show importPre c ++ '"' :: (astroAssetsSpec ++ ['"'])
          = strL "import " ++ (c ++ (strL " from " ++ '"' :: (astroAssetsSpec ++ ['"'])))
        from by simp [importPre, List.append_assoc],
      show (7 : Nat) + j = (strL "import ").length + j from rfl,
      take_append_shift, take_append_of_le j c _ hjle]
  have hdrop : (importPre c ++ '"' :: (astroAssetsSpec ++ ['"'])).drop (7 + j)
      = c.drop j ++ (strL " from " ++ '"' :: (astroAssetsSpec ++ ['"'])) := by
    rw [show importPre c ++ '"' :: (astroAssetsSpec ++ ['"'])
          = strL "import " ++ (c ++ (strL " from " ++ '"' :: (astroAssetsSpec ++ ['"'])))
        from by simp [importPre, List.append_assoc],
      show (7 : Nat) + j = (strL "import ").length + j from rfl,
      drop_append_shift, drop_append_of_le j c _ hjle]
  have hbefore : rstripWs ((importPre c ++ '"' :: (astroAssetsSpec ++ ['"'])).take (7 + j))
      = strL "import " ++ rstripWs (c.take j) := by
    rw [htake, rstripWs_append _ _ hkept]
  unfold insertIntoImport
  simp only []
  rw [slice_stmt, brace_index_stmt_some c j hj]
  split
  · rename_i heq
    cases heq
  · rename_i k heq
    injection heq with hk
    subst hk
    split
    · rename_i hic
      rw [hninc] at hic
      cases hic
    · rw [hbefore, hdrop, splice_stmt, renderPro_decomp_shape]
      simp only [mergedClause, importPre, List.append_assoc, List.cons_append, List.nil_append]

/-! ### C7 — idempotence of the named-import merge -/

theorem wfPro_decomp_parts (ls₁ : List PLine) (x : PLine) (ls₂ : List PLine)
    (h : wfPro (ls₁ ++ x :: ls₂) = true) :
    wfPro ls₁ = true ∧ wfPLine x = true ∧ wfPro ls₂ = true := by
  unfold wfPro at h ⊢
  rw [List.all_append, Bool.and_eq_true, List.all_cons, Bool.and_eq_true] at h
  exact ⟨h.1, h.2.1, h.2.2⟩

theorem wfPro_decomp_intro (ls₁ : List PLine) (x : PLine) (ls₂ : List PLine)
    (h1 : wfPro ls₁ = true) (h2 : wfPLine x = true) (h3 : wfPro ls₂ = true) :
    wfPro (ls₁ ++ x :: ls₂) = true := by
  unfold wfPro at h1 h3 ⊢
  rw [List.all_append, Bool.and_eq_true, List.all_cons, Bool.and_eq_true]
  exact ⟨h1, h2, h3⟩

/-- The shared body of `addPictureToFrontmatter` / `addImageToFrontmatter` is
idempotent on every well-formed rendered prologue, provided the new import
line is the rendering of an import whose clause contains the binding name and
the binding name is free of quotes and newlines (as `Picture` and `Image`
are). -/
theorem addNamed_idem (importName cN : Str) (hcN : wfClause cN = true)
    (hInf : importName <:+: cN)
    (hq : importName.all (fun ch => !(ch == '"')) = true)
    (hnl : importName.all (fun ch => !(ch == '\n')) = true)
    (ls : List PLine) (h : wfPro ls = true) :
    addNamedImportToFrontmatter importName (renderPLine (PLine.imp cN astroAssetsSpec))
        (addNamedImportToFrontmatter importName (renderPLine (PLine.imp cN astroAssetsSpec))
          (renderPro ls))
      = addNamedImportToFrontmatter importName (renderPLine (PLine.imp cN astroAssetsSpec))
          (renderPro ls) := by
  have hincN : ∀ x : Str, includesSub (importPre cN ++ x) importName = true := by
    intro x
    exact includesSub_of_infix _ _ (hInf.trans (clause_infix_stmt cN x))
  cases hf : (prologueImps 0 ls).find? (fun i => i.n == astroAssetsSpec) with
  | none =>
    have hinner : addNamedImportToFrontmatter importName
        (renderPLine (PLine.imp cN astroAssetsSpec)) (renderPro ls)
        = '\n' :: (renderPLine (PLine.imp cN astroAssetsSpec)
            ++ '\n' :: trimStartStr (renderPro ls)) := by
      unfold addNamedImportToFrontmatter
      simp only []
      rw [parseImports_render _ h, hf]
      rfl
    rw [hinner]
    exact addNamed_prepend_noop importName cN (trimStartStr (renderPro ls))
      (renderPLine (PLine.imp cN astroAssetsSpec)) hcN (hincN _)
  | some imp =>
    obtain ⟨ls₁, c, ls₂, hdec, hfree, himp⟩ := find?_prologueImps_decomp ls 0 imp hf
    subst hdec
    rw [Nat.zero_add] at himp
    subst himp
    obtain ⟨hw1, hwx, hw2⟩ := wfPro_decomp_parts ls₁ _ ls₂ h
    have hcw : wfClause c = true := by
      unfold wfPLine at hwx
      rw [Bool.and_eq_true] at hwx
      exact hwx.1
    have hinner : addNamedImportToFrontmatter importName
        (renderPLine (PLine.imp cN astroAssetsSpec))
        (renderPro (ls₁ ++ PLine.imp c astroAssetsSpec :: ls₂))
        = insertIntoImport (renderPro (ls₁ ++ PLine.imp c astroAssetsSpec :: ls₂))
            (impOfAt (renderPro ls₁).length c astroAssetsSpec).ss
            (impOfAt (renderPro ls₁).length c astroAssetsSpec).se importName := by
      unfold addNamedImportToFrontmatter
      simp only []
      rw [parseImports_render _ h, hf]
    by_cases hic : includesSub (importPre c ++ '"' :: (astroAssetsSpec ++ ['"'])) importName = true
    · have hfix := hinner.trans
        (insertIntoImport_noop_of_includes _ _ _ _ (by rw [slice_stmt]; exact hic))
      rw [hfix, hfix]
    · have hninc := Bool.eq_false_iff.mpr hic
      cases hj : indexOfSub c ['\x7d'] with
      | none =>
        have hfix := hinner.trans
          (insertIntoImport_no_closing_brace _ _ _ _
            (by rw [slice_stmt]; exact brace_index_stmt_none c hj))
        rw [hfix, hfix]
      | some j =>
        obtain ⟨hcl, hdr⟩ := indexOfSub_single_found_spec '\x7d' c j hj
        have hj1 : 1 ≤ j := by
          by_contra h0
          have hj0 : j = 0 := by omega
          subst hj0
          rw [List.drop_zero] at hdr
          have hhb := (wfClause_parts c hcw).2.2.1
          rw [hdr] at hhb
          simp at hhb
        have hstep := hinner.trans
          (insertIntoImport_render_surgery ls₁ c ls₂ importName j hcw hj hninc)
        rw [hstep]
        apply addNamed_render_noop
        · refine wfPro_decomp_intro _ _ _ hw1 ?_ hw2
          unfold wfPLine
          rw [Bool.and_eq_true]
          exact ⟨mergedClause_wf c importName j hcw hj1 hq hnl, by decide⟩
        · exact hfree
        · exact includesSub_of_infix _ _
            ((importName_infix_mergedClause c importName j).trans (clause_infix_stmt _ _))

/-! ### C7 — idempotence of the default-import insertion -/

theorem drop_se_stmt (ls₁ : List PLine) (c s : Str) (ls₂ : List PLine) :
    (renderPro (ls₁ ++ PLine.imp c s :: ls₂)).drop (impOfAt (renderPro ls₁).length c s).se
      = ';' :: '\n' :: renderPro ls₂ := by
  rw [renderPro_decomp_shape, impOfAt_se_eq]
  rw [show renderPro ls₁ ++ ((importPre c ++ '"' :: (s ++ ['"'])) ++ (';' :: '\n' :: renderPro ls₂))
        = (renderPro ls₁ ++ (importPre c ++ '"' :: (s ++ ['"']))) ++ (';' :: '\n' :: renderPro ls₂)
      from by simp [List.append_assoc]]
  rw [List.drop_left' (by simp)]

theorem indexOfSub_semi_nl (R : Str) : indexOfSub (';' :: '\n' :: R) ['\n'] = some 1 := by
  have hpre : (['\n'].isPrefixOf (';' :: '\n' :: R)) = false := by
    rw [isPrefixOf_single_cons]
    decide
  rw [indexOfSub_cons_shift _ _ _ hpre]
  have h0 : indexOfSub ('\n' :: R) ['\n'] = some 0 := by
    unfold indexOfSub
    rw [indexOfSubAux]
    simp [isPrefixOf_single_cons]
  rw [h0]
  rfl

/-- `insertImportAfterLast` on a rendered prologue whose last import is the
rendered line `import <c> from "<s>";`: the new statement goes right after
that line's newline. -/
theorem insertImportAfterLast_render (ls₁ : List PLine) (c s : Str) (ls₂ : List PLine)
    (imports : List Imp) (istmt : Str)
    (hl : imports.getLast? = some (impOfAt (renderPro ls₁).length c s)) :
    insertImportAfterLast (renderPro (ls₁ ++ PLine.imp c s :: ls₂)) imports istmt
      = renderPro ls₁
          ++ ((renderPLine (PLine.imp c s) ++ ['\n']) ++ (istmt ++ ('\n' :: renderPro ls₂))) := by
  unfold insertImportAfterLast
  simp only []
  split
  · rename_i li hli
    rw [hl] at hli
    injection hli with hli2
    subst hli2
    rw [drop_se_stmt, indexOfSub_semi_nl]
    split
    · rename_i idx heq
      injection heq with heq2
      subst heq2
      have hA : renderPro (ls₁ ++ PLine.imp c s :: ls₂)
          = (renderPro ls₁ ++ (importPre c ++ '"' :: (s ++ ['"'])))
              ++ (';' :: '\n' :: renderPro ls₂) := by
        rw [renderPro_decomp_shape]
        simp [List.append_assoc]
      have hlen : (impOfAt (renderPro ls₁).length c s).se + 1 + 1
          = (renderPro ls₁ ++ (importPre c ++ '"' :: (s ++ ['"']))).length + 2 := by
        rw [impOfAt_se_eq]
        simp
      rw [hA, hlen, take_append_shift, drop_append_shift]
      simp [renderPLine, importPre, List.append_assoc]
    · rename_i heq
      cases heq
  · rename_i hli
    rw [hl] at hli
    cases hli

/-- `addImageImportToFrontmatter` with a fixed binding name and module path is
idempotent on every well-formed rendered prologue: the second application
returns its input unchanged. -/
theorem addImageImport_idem (ls : List PLine) (h : wfPro ls = true) (vn ip : Str)
    (hvn : wfClause vn = true) (hip : wfSpec ip = true) :
    addImageImportToFrontmatter (addImageImportToFrontmatter (renderPro ls) vn ip) vn ip
      = addImageImportToFrontmatter (renderPro ls) vn ip := by
  cases hhp : hasImportPath (renderPro ls) (parseImports (renderPro ls)) ip with
  | true =>
    have hfix : addImageImportToFrontmatter (renderPro ls) vn ip = renderPro ls := by
      unfold addImageImportToFrontmatter
      simp only []
      simp [hhp]
    rw [hfix, hfix]
  | false =>
    cases hl : (prologueImps 0 ls).getLast? with
    | none =>
      have hfirst : addImageImportToFrontmatter (renderPro ls) vn ip
          = '\n' :: (renderPLine (PLine.imp vn ip) ++ '\n' :: trimStartStr (renderPro ls)) := by
        unfold addImageImportToFrontmatter
        simp only []
        simp only [hhp, Bool.false_eq_true, if_false]
        unfold insertImportAfterLast
        simp only []
        rw [parseImports_render _ h, hl, renderDefaultImport_eq]
        rfl
      rw [hfirst]
      unfold addImageImportToFrontmatter
      simp only []
      simp [hasImportPath_prepend vn ip _ hvn hip]
    | some lastImport =>
      obtain ⟨ls₁, c, s, ls₂, hdec, hnil, himp⟩ := getLast?_prologueImps_decomp ls 0 lastImport hl
      subst hdec
      rw [Nat.zero_add] at himp
      subst himp
      have hfirst : addImageImportToFrontmatter (renderPro (ls₁ ++ PLine.imp c s :: ls₂)) vn ip
          = renderPro (ls₁ ++ PLine.imp c s :: PLine.imp vn ip :: ls₂) := by
        unfold addImageImportToFrontmatter
        simp only []
        simp only [hhp, Bool.false_eq_true, if_false]
        rw [parseImports_render _ h]
        rw [insertImportAfterLast_render ls₁ c s ls₂ _ (renderDefaultImport vn ip) hl,
          renderDefaultImport_eq]
        rw [renderPro_append, renderPro_cons, renderPro_cons]
        simp [List.append_assoc]
      rw [hfirst]
      have hwf' : wfPro (ls₁ ++ PLine.imp c s :: PLine.imp vn ip :: ls₂) = true := by
        obtain ⟨hw1, hwx, hw2⟩ := wfPro_decomp_parts ls₁ _ ls₂ h
        apply wfPro_decomp_intro _ _ _ hw1 hwx
        unfold wfPro at hw2 ⊢
        rw [List.all_cons, Bool.and_eq_true]
        refine ⟨?_, hw2⟩
        unfold wfPLine
        rw [Bool.and_eq_true]
        exact ⟨hvn, hip⟩
      have hmem : ip ∈ specsOf (ls₁ ++ PLine.imp c s :: PLine.imp vn ip :: ls₂) := by
        simp [specsOf, List.filterMap_append, List.filterMap_cons]
      have htrue := (hasImportPath_render _ ip hwf').mpr hmem
      unfold addImageImportToFrontmatter
      simp only []
      simp [htrue]

/-- C7: prologue import insertion is idempotent.  For every well-formed
prologue — a rendered sequence of import statements and plain lines (the
spec's frontmatter prologue) — applying the merge-case insertion
(`addPictureToFrontmatter` / `addImageToFrontmatter`) or the default-import
insertion (`addImageImportToFrontmatter` with a fixed well-formed binding
name and module path) twice yields the same text as applying it once: the
second application returns its input unchanged. -/
theorem prologue_insertion_idempotent (ls : List PLine) (h : wfPro ls = true) :
    (addPictureToFrontmatter (addPictureToFrontmatter (renderPro ls))
        = addPictureToFrontmatter (renderPro ls))
    ∧ (addImageToFrontmatter (addImageToFrontmatter (renderPro ls))
        = addImageToFrontmatter (renderPro ls))
    ∧ (∀ vn ip : Str, wfClause vn = true → wfSpec ip = true →
        addImageImportToFrontmatter
            (addImageImportToFrontmatter (renderPro ls) vn ip) vn ip
          = addImageImportToFrontmatter (renderPro ls) vn ip) := by
  refine ⟨?_, ?_, ?_⟩
  · unfold addPictureToFrontmatter
    rw [show strL "import \x7b Picture \x7d from \"astro:assets\";"
          = renderPLine (PLine.imp (strL "\x7b Picture \x7d") astroAssetsSpec) from by decide]
    exact addNamed_idem (strL "Picture") (strL "\x7b Picture \x7d") (by decide) (by decide)
      (by decide) (by decide) ls h
  · unfold addImageToFrontmatter
    rw [show strL "import \x7b Image \x7d from \"astro:assets\";"
          = renderPLine (PLine.imp (strL "\x7b Image \x7d") astroAssetsSpec) from by decide]
    exact addNamed_idem (strL "Image") (strL "\x7b Image \x7d") (by decide) (by decide)
      (by decide) (by decide) ls h
  · intro vn ip hvn hip
    exact addImageImport_idem ls h vn ip hvn hip

/-- C7 witness: on a concrete two-line prologue, the Picture merge insertion
and the default-import insertion are both idempotent. -/
theorem prologue_insertion_idempotent_witness :
    wfPro exPro = true
    ∧ wfClause (strL "heroTwo") = true ∧ wfSpec (strL "./b.png") = true
    ∧ addPictureToFrontmatter (addPictureToFrontmatter (renderPro exPro))
        = addPictureToFrontmatter (renderPro exPro)
    ∧ addImageImportToFrontmatter
          (addImageImportToFrontmatter (renderPro exPro) (strL "heroTwo") (strL "./b.png"))
          (strL "heroTwo") (strL "./b.png")
        = addImageImportToFrontmatter (renderPro exPro) (strL "heroTwo") (strL "./b.png") :=
  ⟨by decide, by decide, by decide,
    (prologue_insertion_idempotent exPro (by decide)).1,
    (prologue_insertion_idempotent exPro (by decide)).2.2 (strL "heroTwo") (strL "./b.png")
      (by decide) (by decide)⟩

end CodestitchHelper
